import Mathlib

/-!
Verification of the GhostBot decision loop, response normalizer, retry
policy, action executor, device-driver swipe table and session recorder,
shallowly embedded from the Python sources.  Python strings are modelled
as lists of characters (`Str`), Python dictionaries produced by the JSON
decoder as association lists, and the standard-library JSON decoder
`json.loads` as an executable lexer/parser pair (`jsonLoads`).
-/

/-- Python strings, modelled as lists of characters. -/
abbrev Str := List Char

/-- Conversion from a Lean string literal to the character-list model. -/
def strL (s : String) : Str := s.data

/-- Whitespace for Python `str.strip()` (ASCII subset). -/
def pyWsChar (c : Char) : Bool :=
  c == ' ' || c == '\t' || c == '\n' || c == '\r' || c == '\x0b' || c == '\x0c'

/-- Whitespace accepted between tokens by the JSON grammar (`json.loads`). -/
def jsonWsChar (c : Char) : Bool :=
  c == ' ' || c == '\t' || c == '\n' || c == '\r'

/-- Remove trailing characters satisfying `pyWsChar` (right half of `str.strip()`). -/
def stripRight : Str → Str
  | [] => []
  | c :: rest =>
    match stripRight rest with
    | [] => if pyWsChar c then [] else [c]
    | r => c :: r

/-- Python `str.strip()` on the ASCII whitespace set. -/
def pyStrip (s : Str) : Str := stripRight (s.dropWhile pyWsChar)

/-- Python `str.startswith(pat)`. -/
def startsW : Str → Str → Bool
  | [], _ => true
  | _ :: _, [] => false
  | p :: ps, c :: cs => p == c && startsW ps cs

/-- Python `str.split("\n")`. -/
def splitOnNl : Str → List Str
  | [] => [[]]
  | c :: rest =>
    if c = '\n' then [] :: splitOnNl rest
    else
      match splitOnNl rest with
      | [] => [[c]]
      | l :: ls => (c :: l) :: ls

/-- Python `"\n".join(lines)`. -/
def joinNl : List Str → Str
  | [] => []
  | [l] => l
  | l :: ls => l ++ '\n' :: joinNl ls

/-- Python `str.lower()` (ASCII subset). -/
def lowerStr (s : Str) : Str := s.map Char.toLower

/-- Python substring test `pat in s` for strings. -/
def hasSubstr (pat : Str) : Str → Bool
  | [] => pat == []
  | c :: rest => startsW pat (c :: rest) || hasSubstr pat rest

/-! ## The JSON decoder (`json.loads`), modelled as a lexer and a token parser -/

/-- Tokens of the JSON grammar as accepted by `json.loads` (including the
non-standard `NaN`, `Infinity` and `-Infinity` literals Python accepts). -/
inductive JTok where
  | lbrace | rbrace | lbrack | rbrack | colon | comma
  | strT (s : Str) | numT (lx : Str)
  | trueT | falseT | nullT | nanT | infT | negInfT
  deriving DecidableEq, Repr

/-- Value of a hexadecimal digit, for `\uXXXX` escapes. -/
def hexDigitVal (c : Char) : Option Nat :=
  if '0' ≤ c ∧ c ≤ '9' then some (c.toNat - '0'.toNat)
  else if 'a' ≤ c ∧ c ≤ 'f' then some (c.toNat - 'a'.toNat + 10)
  else if 'A' ≤ c ∧ c ≤ 'F' then some (c.toNat - 'A'.toNat + 10)
  else none

/-- Decoding of a single-character string escape (the BACKSLASH table of
`json.loads`). -/
def escChar (c : Char) : Option Char :=
  List.lookup c
    [('"', '"'), ('\\', '\\'), ('/', '/'), ('b', '\x08'),
     ('f', '\x0c'), ('n', '\n'), ('r', '\r'), ('t', '\t')]

/-- Scan the body of a JSON string after the opening quote: returns the decoded
characters and the rest of the input after the closing quote.  Raw control
characters are rejected, as in strict-mode `json.loads`. -/
def lexStrChars : Str → Option (Str × Str)
  | [] => none
  | c :: rest =>
    if c == '"' then some ([], rest)
    else if c == '\\' then
      match rest with
      | [] => none
      | e :: rest2 =>
        if e == 'u' then
          match rest2 with
          | h1 :: h2 :: h3 :: h4 :: rest3 =>
            match hexDigitVal h1, hexDigitVal h2, hexDigitVal h3, hexDigitVal h4 with
            | some a, some b, some c3, some d =>
              match lexStrChars rest3 with
              | some (cs, r) => some (Char.ofNat (((a * 16 + b) * 16 + c3) * 16 + d) :: cs, r)
              | none => none
            | _, _, _, _ => none
          | _ => none
        else
          match escChar e with
          | some ec =>
            match lexStrChars rest2 with
            | some (cs, r) => some (ec :: cs, r)
            | none => none
          | none => none
    else if c.toNat < 32 then none
    else
      match lexStrChars rest with
      | some (cs, r) => some (c :: cs, r)
      | none => none

/-- Maximal run of decimal digits at the head of the input. -/
def spanDigits : Str → (Str × Str)
  | [] => ([], [])
  | c :: rest =>
    if c.isDigit then
      let (d, r) := spanDigits rest
      (c :: d, r)
    else ([], c :: rest)

/-- Integer part of a JSON number: `0` or a nonzero digit followed by digits. -/
def lexInt : Str → Option (Str × Str)
  | [] => none
  | c :: rest =>
    if c == '0' then some (['0'], rest)
    else if c.isDigit then
      let (ds, r) := spanDigits rest
      some (c :: ds, r)
    else none

/-- Optional fractional part `.digits` of a JSON number. -/
def lexFrac : Str → Option (Str × Str)
  | [] => some ([], [])
  | c :: rest =>
    if c == '.' then
      match spanDigits rest with
      | ([], _) => none
      | (ds, r) => some ('.' :: ds, r)
    else some ([], c :: rest)

/-- Optional exponent part `e[+-]digits` of a JSON number. -/
def lexExp : Str → Option (Str × Str)
  | [] => some ([], [])
  | c :: rest =>
    if c == 'e' || c == 'E' then
      match rest with
      | s :: r2 =>
        if s == '+' || s == '-' then
          match spanDigits r2 with
          | ([], _) => none
          | (ds, r) => some (c :: s :: ds, r)
        else
          match spanDigits (s :: r2) with
          | ([], _) => none
          | (ds, r) => some (c :: ds, r)
      | [] => none
    else some ([], c :: rest)

/-- Lexeme of a JSON number starting at the head of the input. -/
def lexNum (s : Str) : Option (Str × Str) :=
  let neg : Str := if s.head? = some '-' then ['-'] else []
  let s1 : Str := if s.head? = some '-' then s.tail else s
  match lexInt s1 with
  | none => none
  | some (ip, r1) =>
    match lexFrac r1 with
    | none => none
    | some (fp, r2) =>
      match lexExp r2 with
      | none => none
      | some (ep, r3) => some (neg ++ ip ++ fp ++ ep, r3)

/-- Read one token at the head of the (non-whitespace) input. -/
def lexTok : Str → Option (JTok × Str)
  | [] => none
  | c :: rest =>
    if c == '{' then some (.lbrace, rest)
    else if c == '}' then some (.rbrace, rest)
    else if c == '[' then some (.lbrack, rest)
    else if c == ']' then some (.rbrack, rest)
    else if c == ':' then some (.colon, rest)
    else if c == ',' then some (.comma, rest)
    else if c == '"' then
      match lexStrChars rest with
      | some (cs, r) => some (.strT cs, r)
      | none => none
    else if startsW (strL "true") (c :: rest) then some (.trueT, rest.drop 3)
    else if startsW (strL "false") (c :: rest) then some (.falseT, rest.drop 4)
    else if startsW (strL "null") (c :: rest) then some (.nullT, rest.drop 3)
    else if startsW (strL "NaN") (c :: rest) then some (.nanT, rest.drop 2)
    else if startsW (strL "Infinity") (c :: rest) then some (.infT, rest.drop 7)
    else if startsW (strL "-Infinity") (c :: rest) then some (.negInfT, rest.drop 8)
    else
      match lexNum (c :: rest) with
      | some (lx, r) => some (.numT lx, r)
      | none => none

/-- Tokenize a whole input, skipping JSON whitespace between tokens.  The fuel
argument is at least the input length plus one whenever the function is used. -/
def lexJson : Nat → Str → Option (List JTok)
  | 0, _ => none
  | fuel + 1, s =>
    match s with
    | [] => some []
    | c :: rest =>
      if jsonWsChar c then lexJson fuel rest
      else
        match lexTok (c :: rest) with
        | none => none
        | some (t, rest2) =>
          match lexJson fuel rest2 with
          | none => none
          | some ts => some (t :: ts)

/-- JSON values as produced by `json.loads`.  Numbers keep their source lexeme,
so no floating-point semantics is attached to them. -/
inductive JVal where
  | jnull
  | jbool (b : Bool)
  | jnum (lx : Str)
  | jstr (s : Str)
  | jarr (xs : List JVal)
  | jobj (kvs : List (Str × JVal))

mutual

/-- Parse one JSON value from the token stream. -/
def parseVal : Nat → List JTok → Option (JVal × List JTok)
  | 0, _ => none
  | _ + 1, [] => none
  | fuel + 1, t :: ts =>
    match t with
    | .strT s => some (.jstr s, ts)
    | .numT lx => some (.jnum lx, ts)
    | .trueT => some (.jbool true, ts)
    | .falseT => some (.jbool false, ts)
    | .nullT => some (.jnull, ts)
    | .nanT => some (.jnum (strL "NaN"), ts)
    | .infT => some (.jnum (strL "Infinity"), ts)
    | .negInfT => some (.jnum (strL "-Infinity"), ts)
    | .lbrace =>
      match ts with
      | .rbrace :: ts2 => some (.jobj [], ts2)
      | _ => parseMembers fuel ts []
    | .lbrack =>
      match ts with
      | .rbrack :: ts2 => some (.jarr [], ts2)
      | _ => parseElems fuel ts []
    | _ => none

/-- Parse the members of a JSON object after the opening brace. -/
def parseMembers : Nat → List JTok → List (Str × JVal) → Option (JVal × List JTok)
  | 0, _, _ => none
  | fuel + 1, .strT k :: .colon :: ts, acc =>
    match parseVal fuel ts with
    | none => none
    | some (v, ts2) =>
      match ts2 with
      | .comma :: ts3 => parseMembers fuel ts3 (acc ++ [(k, v)])
      | .rbrace :: ts3 => some (.jobj (acc ++ [(k, v)]), ts3)
      | _ => none
  | _ + 1, _, _ => none

/-- Parse the elements of a JSON array after the opening bracket. -/
def parseElems : Nat → List JTok → List JVal → Option (JVal × List JTok)
  | 0, _, _ => none
  | fuel + 1, ts, acc =>
    match parseVal fuel ts with
    | none => none
    | some (v, ts2) =>
      match ts2 with
      | .comma :: ts3 => parseElems fuel ts3 (acc ++ [v])
      | .rbrack :: ts3 => some (.jarr (acc ++ [v]), ts3)
      | _ => none

end

/-- The model of Python `json.loads`: tokenize, parse one value, and require
that no tokens remain (the "Extra data" check). -/
def jsonLoads (s : Str) : Option JVal :=
  match lexJson (s.length + 1) s with
  | none => none
  | some toks =>
    match parseVal (toks.length + 1) toks with
    | some (v, []) => some v
    | _ => none

example : pyStrip (strL "  ab\n") = strL "ab" := by decide
example : splitOnNl (strL "a\nb") = [strL "a", strL "b"] := by decide
example : startsW (strL "```") (strL "```json") = true := by decide
example : hasSubstr (strL "ux") (strL "aux_") = true := by decide
example : jsonLoads (strL "\x7b\"a\": [1, true, null], \"b\": \"x\"\x7d") =
    some (.jobj [(strL "a", .jarr [.jnum (strL "1"), .jbool true, .jnull]),
                 (strL "b", .jstr (strL "x"))]) := rfl
example : jsonLoads (strL " -1.5e3 ") = some (.jnum (strL "-1.5e3")) := rfl
example : jsonLoads (strL "\x7b\"a\":1,\x7d") = none := rfl
example : jsonLoads (strL "01") = none := rfl
example : jsonLoads (strL "\"a\\u0041b\"") = some (.jstr (strL "aAb")) := rfl
example : jsonLoads (strL "") = none := rfl
example : jsonLoads (strL "true false") = none := rfl
example : jsonLoads (strL "1.") = none := rfl
example : jsonLoads (strL "NaN") = some (.jnum (strL "NaN")) := rfl

/-! ## Response normalizer (`BaseBrain._parse_response`, src/ghostbot/core/brain.py) -/

/-- Python exception classes raised by the pieces of `_parse_response`:
`ValueError` is the spec's `MalformedResponse`; `TypeError` is what the
`in` operator raises on a non-container operand. -/
inductive PyErr where
  | valueError (msg : Str)
  | typeError (msg : Str)

/-- Mutable diagnostic fields of `BaseBrain` (`_last_response`,
`_last_raw_response`). -/
structure BrainState where
  last_response : Option JVal
  last_raw_response : Option Str

/-- A fresh `BaseBrain.__init__` state: both diagnostics are `None`. -/
def BrainState.init : BrainState := ⟨none, none⟩

/-- The code-fence loop of `_parse_response`: a line starting with three
backticks toggles `in_block` and is dropped; other lines are kept exactly
when `in_block` holds. -/
def stripFenceLines : Bool → List Str → List Str
  | _, [] => []
  | inBlock, l :: ls =>
    if startsW (strL "```") l then stripFenceLines (!inBlock) ls
    else if inBlock then l :: stripFenceLines inBlock ls
    else stripFenceLines inBlock ls

/-- The string handed to `json.loads` by `_parse_response`: strip the raw
text; when it starts with a code fence, keep only the fenced interior lines. -/
def extractContent (raw : Str) : Str :=
  let content := pyStrip raw
  if startsW (strL "```") content then joinNl (stripFenceLines false (splitOnNl content))
  else content

/-- The required top-level fields of a Decision. -/
def required_fields : List Str :=
  [strL "reasoning", strL "action", strL "ux_audit", strL "goal_achieved"]

/-- Python equality test `v == s` between a decoded JSON value and a string. -/
def eqJStr (v : JVal) (s : Str) : Bool :=
  match v with
  | .jstr t => t == s
  | _ => false

/-- The Python membership test `f in parsed` on a decoded JSON value:
key membership for dicts, element equality for lists, substring test for
strings, and a `TypeError` for numbers, booleans and `None`. -/
def pyContains (f : Str) (v : JVal) : Except PyErr Bool :=
  match v with
  | .jobj kvs => .ok (kvs.any fun kv => kv.1 == f)
  | .jarr xs => .ok (xs.any fun x => eqJStr x f)
  | .jstr s => .ok (hasSubstr f s)
  | _ => .error (.typeError (strL "argument is not iterable"))

/-- The `for field in required_fields` validation loop of `_parse_response`. -/
def checkFields (parsed : JVal) : List Str → Except PyErr Unit
  | [] => .ok ()
  | f :: fs =>
    match pyContains f parsed with
    | .error e => .error e
    | .ok true => checkFields parsed fs
    | .ok false => .error (.valueError (strL "Missing required field: " ++ f))

/-- Validation of all four required fields. -/
def requiredFieldCheck (parsed : JVal) : Except PyErr Unit :=
  checkFields parsed required_fields

/-- Whether a decoded JSON value supports the `in` operator (dict, list, str). -/
def isContainer : JVal → Bool
  | .jobj _ => true
  | .jarr _ => true
  | .jstr _ => true
  | _ => false

/-- Whether a decoded JSON value is a JSON object (a Python dict). -/
def isObj : JVal → Bool
  | .jobj _ => true
  | _ => false

/-- `BaseBrain._parse_response`: store the raw text in the diagnostics, reject
an empty response, strip code fences, decode with `json.loads`, store the
parsed value, and validate the required fields.  Returns the Python result
(the parsed value or the raised exception) together with the updated
diagnostic state. -/
def parse_response (st : BrainState) (raw : Str) : Except PyErr JVal × BrainState :=
  let st1 := { st with last_raw_response := some raw }
  if raw = [] then (.error (.valueError (strL "Empty response from AI")), st1)
  else
    match jsonLoads (extractContent raw) with
    | none => (.error (.valueError (strL "Invalid JSON response")), st1)
    | some parsed =>
      let st2 := { st1 with last_response := some parsed }
      match requiredFieldCheck parsed with
      | .error e => (.error e, st2)
      | .ok _ => (.ok parsed, st2)

example :
    (parse_response BrainState.init
      (strL "```json\n\x7b\"reasoning\":\"r\",\"action\":\x7b\"type\":\"tap\"\x7d,\"ux_audit\":\x7b\"status\":\"PASS\"\x7d,\"goal_achieved\":false\x7d\n```")).1 =
    .ok (.jobj [(strL "reasoning", .jstr (strL "r")),
                (strL "action", .jobj [(strL "type", .jstr (strL "tap"))]),
                (strL "ux_audit", .jobj [(strL "status", .jstr (strL "PASS"))]),
                (strL "goal_achieved", .jbool false)]) := rfl
example :
    (parse_response BrainState.init (strL "\x7b\"reasoning\":1\x7d")).1 =
    .error (.valueError (strL "Missing required field: action")) := rfl

/-! ## Retry policy of `get_next_action` (the `@retry` decorator on
`OpenAIBrain.get_next_action` and `AnthropicBrain.get_next_action`) -/

/-- Exceptions an attempt of `get_next_action` can raise: the transient
transport faults (`TimeoutError`, `ConnectionError`), the `ValueError`
raised by `_parse_response`, and any other exception class. -/
inductive BrainExn where
  | timeoutError
  | connectionError
  | valueError (msg : Str)
  | otherError

/-- The `retry_if_exception_type((TimeoutError, ConnectionError))` predicate. -/
def transientExn : BrainExn → Bool
  | .timeoutError => true
  | .connectionError => true
  | _ => false

/-- The `wait_exponential(multiplier=1, min=2, max=10)` schedule: the sleep
after failed attempt number `n` is `1 * 2 ^ n` clamped into `[2, 10]`. -/
def waitExp (n : Nat) : Nat := Nat.max 2 (Nat.min (2 ^ n) 10)

/-- Execution of the `@retry(stop=stop_after_attempt(3), ...)` decorator.
`att n` is the outcome of the n-th call of the decorated body (1-based);
`retriesLeft` counts the attempts still allowed after the current one.
Returns the final outcome (`reraise=True` re-raises the last exception),
the number of the last attempt made, and the list of back-off sleeps. -/
def retryRun (att : Nat → Except BrainExn JVal) :
    Nat → Nat → Except BrainExn JVal × Nat × List Nat
  | 0, n => (att n, n, [])
  | retriesLeft + 1, n =>
    match att n with
    | .ok v => (.ok v, n, [])
    | .error e =>
      if transientExn e then
        let r := retryRun att retriesLeft (n + 1)
        (r.1, r.2.1, waitExp n :: r.2.2)
      else (.error e, n, [])

/-- `get_next_action` under the decorator: three attempts in total. -/
def get_next_action (att : Nat → Except BrainExn JVal) :
    Except BrainExn JVal × Nat × List Nat :=
  retryRun att 2 1

/-! ## Device driver (`MobileDriver.swipe`, src/ghostbot/core/driver.py) -/

/-- Decimal rendering of a natural number, for `str(x)` in command lists. -/
def natStr (n : Nat) : Str := Nat.toDigits 10 n

/-- The fixed coordinate table of `MobileDriver.swipe`. -/
def swipe_coords : List (Str × (Nat × Nat × Nat × Nat)) :=
  [(strL "up", (500, 1500, 500, 500)),
   (strL "down", (500, 500, 500, 1500)),
   (strL "left", (800, 1000, 200, 1000)),
   (strL "right", (200, 1000, 800, 1000))]

/-- Python `direction in swipe_coords` / `swipe_coords[direction]` lookup. -/
def lookupCoords (direction : Str) : Option (Nat × Nat × Nat × Nat) :=
  (swipe_coords.find? fun kv => kv.1 == direction).map (·.2)

/-- Result of one `MobileDriver.swipe` call: the subprocess command passed to
the device transport (`None` when no transport call is made), the boolean
result, and the `_last_error` value written by the invalid-direction branch. -/
structure SwipeResult where
  cmd : Option (List Str)
  ret : Bool
  err : Option Str

/-- `MobileDriver.swipe`: resolve the direction in the fixed table; an unknown
direction records `_last_error` and fails without any transport call;
otherwise build the `adb shell input swipe` command and run it.
`runCmd` abstracts `MobileDriver._run_command`'s success result. -/
def MobileDriver.swipe (runCmd : List Str → Bool) (direction : Str) : SwipeResult :=
  match lookupCoords direction with
  | none =>
    { cmd := none, ret := false,
      err := some (strL "Invalid swipe direction: " ++ direction) }
  | some (x1, y1, x2, y2) =>
    let c := [strL "adb", strL "shell", strL "input", strL "swipe",
              natStr x1, natStr y1, natStr x2, natStr y2, strL "300"]
    { cmd := some c, ret := runCmd c, err := none }

/-! ## Action executor (`execute_action`, src/ghostbot/main.py) -/

/-- A decoded JSON object used as a Python dict. -/
abbrev Dict := List (Str × JVal)

/-- Python `d.get(key, default)` on a dict decoded by `json.loads`
(duplicate keys collapse to the last occurrence, as in `json.loads`). -/
def dictGet (kvs : Dict) (key : Str) (dflt : JVal) : JVal :=
  ((kvs.reverse.find? fun kv => kv.1 == key).map (·.2)).getD dflt

/-- Python truthiness of a decoded JSON value (`if not goal_achieved`).
A number is falsy exactly when its lexeme denotes zero. -/
def numLexIsZero (lx : Str) : Bool :=
  (lx.takeWhile fun c => c != 'e' && c != 'E').all fun c =>
    c == '0' || c == '-' || c == '.'

/-- Python `bool(v)` for decoded JSON values. -/
def pyTruthy : JVal → Bool
  | .jnull => false
  | .jbool b => b
  | .jnum lx => !numLexIsZero lx
  | .jstr s => !s.isEmpty
  | .jarr xs => !xs.isEmpty
  | .jobj kvs => !kvs.isEmpty

/-- The calls of the device-transport (`MobileDriver`) interface that
`execute_action` can make. -/
inductive DriverCall where
  | tap (value : JVal)
  | tap_point (x y : JVal)
  | input_text (value : JVal)
  | go_back
  | swipeDir (value : JVal)

/-- Observable outcome of one `execute_action` call: the transport calls made
(at most one), whether the fixed `UI_SETTLE_TIME` sleep of the `wait` branch
ran, and the returned boolean. -/
structure ExecResult where
  calls : List DriverCall
  slept : Bool
  ret : Bool

/-- `execute_action`: dispatch on `action.get("type", "").lower()`.  `drv`
abstracts the boolean results of the device transport.  Returns `none` when
the `type` value is not a string (Python would raise on `.lower()`). -/
def execute_action (drv : DriverCall → Bool) (action : Dict) : Option ExecResult :=
  match dictGet action (strL "type") (.jstr []) with
  | .jstr ty0 =>
    let action_type := lowerStr ty0
    let value := dictGet action (strL "value") (.jstr [])
    some (
      if action_type = strL "tap" then
        { calls := [.tap value], slept := false, ret := drv (.tap value) }
      else if action_type = strL "tap_point" then
        let x := dictGet action (strL "x") (.jnum (strL "0"))
        let y := dictGet action (strL "y") (.jnum (strL "0"))
        { calls := [.tap_point x y], slept := false, ret := drv (.tap_point x y) }
      else if action_type = strL "input" then
        { calls := [.input_text value], slept := false, ret := drv (.input_text value) }
      else if action_type = strL "back" then
        { calls := [.go_back], slept := false, ret := drv .go_back }
      else if action_type = strL "swipe" then
        { calls := [.swipeDir value], slept := false, ret := drv (.swipeDir value) }
      else if action_type = strL "wait" then
        { calls := [], slept := true, ret := true }
      else if action_type = strL "done" then
        { calls := [], slept := false, ret := true }
      else
        { calls := [], slept := false, ret := false })
  | _ => none

/-! ## Session recorder (`TestReporter`, src/ghostbot/core/logger.py).
The on-disk Markdown rendering is excluded by the spec; the report is
modelled as the structured sequence of written entries. -/

/-- An element of `TestReporter._ux_issues`. -/
structure UxIssueRec where
  step : Nat
  status : Str
  issue : JVal

/-- One step entry appended to the report by `log_step`.  `highLatencyNote`
records whether the "(High latency detected)" annotation was appended. -/
structure StepEntry where
  step : Nat
  action : Dict
  reasoning : JVal
  ux_audit : Dict
  latency_ms : Option Nat
  highLatencyNote : Bool

/-- State of a `TestReporter`. -/
structure TestReporter where
  step_count : Nat
  ux_issues : List UxIssueRec
  entries : List StepEntry
  goal : Option Str
  headerWritten : Bool

/-- `TestReporter.__init__`: the step counter starts at 0. -/
def TestReporter.init : TestReporter :=
  { step_count := 0, ux_issues := [], entries := [], goal := none, headerWritten := false }

/-- `TestReporter.start_session`: record the goal and write the header. -/
def start_session (r : TestReporter) (goal : Str) : TestReporter :=
  { r with goal := some goal, headerWritten := true }

/-- `TestReporter.log_step`: increment the step counter first, then append one
entry numbered with the new counter, accumulating WARN/FAIL audits into the
issue list. -/
def log_step (r : TestReporter) (action : Dict) (reasoning : JVal)
    (ux_audit : Dict) (latency_ms : Option Nat) : TestReporter :=
  let n := r.step_count + 1
  let status := dictGet ux_audit (strL "status") (.jstr (strL "PASS"))
  let issue := dictGet ux_audit (strL "issue") .jnull
  let issues :=
    if eqJStr status (strL "PASS") then r.ux_issues
    else if eqJStr status (strL "WARN") then r.ux_issues ++ [⟨n, strL "WARN", issue⟩]
    else r.ux_issues ++ [⟨n, strL "FAIL", issue⟩]
  let highLat := match latency_ms with
    | some l => decide (l > 5000)
    | none => false
  { r with step_count := n, ux_issues := issues,
           entries := r.entries ++ [⟨n, action, reasoning, ux_audit, latency_ms, highLat⟩] }

/-- The summary block written by `end_session`. -/
structure SessionSummary where
  success : Bool
  total_steps : Nat
  issues : List UxIssueRec
  notes : Option Str

/-- `TestReporter.end_session`: write the summary; the reporter state
(in particular `_step_count`) is not modified. -/
def end_session (r : TestReporter) (success : Bool) (final_notes : Option Str) :
    TestReporter × SessionSummary :=
  (r, { success := success, total_steps := r.step_count,
        issues := r.ux_issues, notes := final_notes })

/-! ## Agent loop (`run_ghost_bot`, src/ghostbot/main.py) -/

/-- Constants of src/ghostbot/main.py (`UI_SETTLE_TIME` is 2.0 seconds in the
source; sleeps are tracked in whole seconds here). -/
def MAX_STEPS : Nat := 50

/-- High-latency threshold in milliseconds. -/
def HIGH_LATENCY_THRESHOLD : Nat := 5000

/-- UI settle pause in seconds. -/
def UI_SETTLE_TIME : Nat := 2

/-- The latency-warning context string synthesized by the loop. -/
def latencyContext (latency_ms : Nat) : Option Str :=
  if latency_ms > HIGH_LATENCY_THRESHOLD then
    some (strL "HIGH LATENCY DETECTED: " ++ natStr latency_ms ++
          strL "ms since last action. The app may be slow or unresponsive.")
  else none

/-- Environment of one loop iteration: the outcome of the screen capture, the
image encoding, the measured latency, the hierarchy fetch, the brain call
(`get_next_action` seen from the loop, after its internal retries), and the
device-transport results.  These abstract the external collaborators. -/
structure StepEnv where
  captureOk : Bool
  encodeOk : Bool
  hierarchy : Option Str
  latencyMs : Nat
  decideRes : Except BrainExn Dict
  drv : DriverCall → Bool

/-- State of the `while` loop of `run_ghost_bot`, plus observable traces:
every capture attempt with the step number it ran under, every executed
action with its result, and every fixed sleep taken by the loop. -/
structure LoopState where
  step : Nat
  goalAchieved : JVal
  reporter : TestReporter
  captureAttempts : List (Nat × Bool)
  executed : List (Dict × Bool)
  sleeps : List Nat

/-- State at loop entry: `step = 0`, `goal_achieved = False`, header written. -/
def initLoopState (goal : Str) : LoopState :=
  { step := 0, goalAchieved := .jbool false,
    reporter := start_session TestReporter.init goal,
    captureAttempts := [], executed := [], sleeps := [] }

/-- One execution of the `while` body: increment the step, capture (failure
sleeps 1s and re-enters the loop), encode (failure re-enters), ask the brain
(`ValueError` re-enters, any other error sleeps 5s and re-enters), extract the
decision fields with their lenient defaults, record the step, and unless the
goal is achieved execute the action and pause `UI_SETTLE_TIME`.  Returns
`none` when Python would raise out of the loop (a non-dict `action` or
`ux_audit` value reaching attribute access). -/
def loopIter (env : Nat → StepEnv) (st : LoopState) : Option LoopState :=
  let s := st.step + 1
  let e := env s
  let st := { st with step := s, captureAttempts := st.captureAttempts ++ [(s, e.captureOk)] }
  if e.captureOk = false then
    some { st with sleeps := st.sleeps ++ [1] }
  else if e.encodeOk = false then
    some st
  else
    match e.decideRes with
    | .error (BrainExn.valueError _) => some st
    | .error _ => some { st with sleeps := st.sleeps ++ [5] }
    | .ok decision =>
      let reasoning := dictGet decision (strL "reasoning") (.jstr (strL "No reasoning provided"))
      let actionJ := dictGet decision (strL "action") (.jobj [(strL "type", .jstr (strL "wait"))])
      let uxJ := dictGet decision (strL "ux_audit")
        (.jobj [(strL "status", .jstr (strL "PASS")), (strL "issue", .jnull)])
      let goalJ := dictGet decision (strL "goal_achieved") (.jbool false)
      match actionJ, uxJ with
      | .jobj akvs, .jobj ukvs =>
        let st := { st with
          reporter := log_step st.reporter akvs reasoning ukvs (some e.latencyMs),
          goalAchieved := goalJ }
        if pyTruthy goalJ then some st
        else
          match execute_action e.drv akvs with
          | none => none
          | some er =>
            some { st with executed := st.executed ++ [(akvs, er.ret)],
                           sleeps := st.sleeps ++ [UI_SETTLE_TIME] }
      | _, _ => none

/-- The `while step < MAX_STEPS and not goal_achieved` loop.  `fuel` bounds the
number of iterations (the Python loop can run unboundedly many failing
iterations); `none` means fuel ran out or an iteration raised. -/
def runLoop (env : Nat → StepEnv) (maxSteps : Nat) : Nat → LoopState → Option LoopState
  | 0, _ => none
  | fuel + 1, st =>
    if st.step < maxSteps ∧ pyTruthy st.goalAchieved = false then
      match loopIter env st with
      | none => none
      | some st2 => runLoop env maxSteps fuel st2
    else some st

/-- Observable outcome of a whole session: the terminal `Completed(success)`
state, whether the step-limit-reached message was printed, the step count in
the final notes, and the closed report. -/
structure SessionResult where
  success : Bool
  limitNote : Bool
  notesSteps : Nat
  reporter : TestReporter
  summary : SessionSummary
  final : LoopState

/-- The post-loop epilogue of `run_ghost_bot`: print the goal-achieved or the
step-limit message, and close the report with
`success=goal_achieved, final_notes="Session ended after {step} steps."`. -/
def finalizeSession (st : LoopState) : SessionResult :=
  let success := pyTruthy st.goalAchieved
  let notes := strL "Session ended after " ++ natStr st.step ++ strL " steps."
  { success := success, limitNote := !success, notesSteps := st.step,
    reporter := (end_session st.reporter success (some notes)).1,
    summary := (end_session st.reporter success (some notes)).2,
    final := st }

/-- A whole session with an explicit step budget. -/
def runSession (env : Nat → StepEnv) (goal : Str) (maxSteps fuel : Nat) :
    Option SessionResult :=
  (runLoop env maxSteps fuel (initLoopState goal)).map finalizeSession

/-- `run_ghost_bot` proper, with the source's fixed `MAX_STEPS` budget. -/
def run_ghost_bot (env : Nat → StepEnv) (goal : Str) (fuel : Nat) :
    Option SessionResult :=
  runSession env goal MAX_STEPS fuel

/-! ## Concrete fixtures used by witnesses and counterexamples -/

/-- A well-formed decision dict with `goal_achieved: false`. -/
def decisionNo : Dict :=
  [(strL "reasoning", .jstr (strL "r")),
   (strL "action", .jobj [(strL "type", .jstr (strL "wait"))]),
   (strL "ux_audit", .jobj [(strL "status", .jstr (strL "PASS")), (strL "issue", .jnull)]),
   (strL "goal_achieved", .jbool false)]

/-- A well-formed decision dict with `goal_achieved: true` and a `done` action. -/
def decisionYes : Dict :=
  [(strL "reasoning", .jstr (strL "r")),
   (strL "action", .jobj [(strL "type", .jstr (strL "done"))]),
   (strL "ux_audit", .jobj [(strL "status", .jstr (strL "PASS")), (strL "issue", .jnull)]),
   (strL "goal_achieved", .jbool true)]

/-- An iteration environment in which everything succeeds and the decision
keeps `goal_achieved` false. -/
def goodEnvNo : StepEnv :=
  { captureOk := true, encodeOk := true, hierarchy := none, latencyMs := 100,
    decideRes := .ok decisionNo, drv := fun _ => true }

/-- An iteration environment in which everything succeeds and the decision
declares the goal achieved. -/
def goodEnvYes : StepEnv :=
  { captureOk := true, encodeOk := true, hierarchy := none, latencyMs := 100,
    decideRes := .ok decisionYes, drv := fun _ => true }

/-- An iteration environment whose screen capture fails. -/
def captureFailEnv : StepEnv :=
  { captureOk := false, encodeOk := true, hierarchy := none, latencyMs := 100,
    decideRes := .ok decisionNo, drv := fun _ => true }

/-- Environment for the capture-retry trace: capture fails on step 1 and
succeeds from step 2 on, after which the goal is achieved. -/
def envCaptureRetry (n : Nat) : StepEnv :=
  if n = 1 then captureFailEnv else goodEnvYes

example :
    (runSession (fun _ => goodEnvNo) (strL "g") 3 4).map
      (fun r => (r.success, r.limitNote, r.notesSteps, r.reporter.entries.length,
                 r.summary.total_steps)) =
    some (false, true, 3, 3, 3) := rfl

example :
    (runSession (fun _ => goodEnvYes) (strL "g") 3 4).map
      (fun r => (r.success, r.limitNote, r.reporter.entries.length,
                 r.final.executed.length)) =
    some (true, false, 1, 0) := rfl

example :
    (runLoop envCaptureRetry 50 3 (initLoopState (strL "g"))).map
      (fun st => (st.captureAttempts, st.step, st.reporter.entries.length)) =
    some ([(1, false), (2, true)], 2, 1) := rfl

/-- Wrap a text in a Markdown code-fence block: a line starting the fence
marker, the content lines, then a closing marker line. -/
def fenceWrap (j : Str) : Str :=
  strL "```json" ++ '\n' :: (j ++ '\n' :: strL "```")

/-- An iteration environment in which everything the loop needs succeeds and
the decision's `action`/`ux_audit` values are dicts (so no attribute access
raises), with the decision `d` returned by the brain. -/
def GoodStep (e : StepEnv) (d : Dict) : Prop :=
  e.captureOk = true ∧ e.encodeOk = true ∧ e.decideRes = .ok d ∧
  (∃ akvs, dictGet d (strL "action") (.jobj [(strL "type", .jstr (strL "wait"))]) = .jobj akvs ∧
    ∃ er, execute_action e.drv akvs = some er) ∧
  (∃ ukvs, dictGet d (strL "ux_audit")
      (.jobj [(strL "status", .jstr (strL "PASS")), (strL "issue", .jnull)]) = .jobj ukvs)

/-- A raw response that is a JSON string (not an object) containing all four
required field names as substrings. -/
def jsonStrRaw : Str := strL "\"reasoning action ux_audit goal_achieved\""

/-- The decoded value of `jsonStrRaw`. -/
def jsonStrVal : JVal := .jstr (strL "reasoning action ux_audit goal_achieved")

/-- The `adb shell input swipe` command built by `MobileDriver.swipe`. -/
def swipeCmd (x1 y1 x2 y2 : Nat) : List Str :=
  [strL "adb", strL "shell", strL "input", strL "swipe",
   natStr x1, natStr y1, natStr x2, natStr y2, strL "300"]

/-- An attempt schedule with two transient faults and then a success. -/
def att2fail : Nat → Except BrainExn JVal :=
  fun n => if n ≤ 2 then .error .timeoutError else .ok (.jbool true)

/-- A concrete tap action dict. -/
def tapAction : Dict :=
  [(strL "type", .jstr (strL "tap")), (strL "value", .jstr (strL "Login"))]

/-- A concrete JSON text with the four required fields (and a leading blank,
so that stripping is not trivially the identity on it). -/
def reqJsonRaw : Str :=
  strL " \x7b\"reasoning\":1,\"action\":2,\"ux_audit\":3,\"goal_achieved\":4\x7d"

/-- The decoded value of `reqJsonRaw`. -/
def reqJsonVal : JVal :=
  .jobj [(strL "reasoning", .jnum (strL "1")), (strL "action", .jnum (strL "2")),
         (strL "ux_audit", .jnum (strL "3")),
         (strL "goal_achieved", .jnum (strL "4"))]

/-! # Theorems -/

/-- Folding `log_step` over any list of inputs advances the counter by the
list length and appends consecutively numbered entries. -/
theorem foldl_log_step (L : List (Dict × JVal × Dict × Option Nat)) :
    ∀ r : TestReporter,
      (L.foldl (fun a x => log_step a x.1 x.2.1 x.2.2.1 x.2.2.2) r).step_count =
          r.step_count + L.length ∧
      (L.foldl (fun a x => log_step a x.1 x.2.1 x.2.2.1 x.2.2.2) r).entries.map
          (fun e => e.step) =
        r.entries.map (fun e => e.step) ++ List.range' (r.step_count + 1) L.length := by
  induction L with
  | nil => intro r; simp
  | cons hd tl ih =>
    intro r
    simp only [List.foldl_cons, List.length_cons]
    obtain ⟨h1, h2⟩ := ih (log_step r hd.1 hd.2.1 hd.2.2.1 hd.2.2.2)
    constructor
    · rw [h1]; simp only [log_step]; omega
    · rw [h2, show List.range' (r.step_count + 1) (tl.length + 1) =
          (r.step_count + 1) :: List.range' (r.step_count + 1 + 1) tl.length from rfl]
      simp [log_step]

/-- C9: the Recorder's session step counter starts at 0 at construction, is
incremented by exactly one at the start of every `log_step` call and by no
other operation (`start_session` and `end_session` leave it unchanged), so
recorded entries are numbered 1, 2, 3, ... consecutively; `log_step` takes no
account of whether the step's action succeeded. -/
theorem c9_step_counter (r : TestReporter) (g : Str) (action : Dict)
    (reasoning : JVal) (ux : Dict) (lat : Option Nat) (success : Bool)
    (notes : Option Str) (L : List (Dict × JVal × Dict × Option Nat)) :
    TestReporter.init.step_count = 0 ∧
    (log_step r action reasoning ux lat).step_count = r.step_count + 1 ∧
    (start_session r g).step_count = r.step_count ∧
    (end_session r success notes).1.step_count = r.step_count ∧
    (L.foldl (fun a x => log_step a x.1 x.2.1 x.2.2.1 x.2.2.2)
        TestReporter.init).entries.map (fun e => e.step) =
      List.range' 1 L.length := by
  refine ⟨rfl, rfl, rfl, rfl, ?_⟩
  simpa using (foldl_log_step L TestReporter.init).2

/-- An association-list lookup in the swipe table fails exactly for directions
different from all four keys. -/
theorem lookupCoords_eq_none (d : Str) (h1 : d ≠ strL "up") (h2 : d ≠ strL "down")
    (h3 : d ≠ strL "left") (h4 : d ≠ strL "right") : lookupCoords d = none := by
  have e1 : (strL "up" == d) = false := beq_eq_false_iff_ne.mpr (Ne.symm h1)
  have e2 : (strL "down" == d) = false := beq_eq_false_iff_ne.mpr (Ne.symm h2)
  have e3 : (strL "left" == d) = false := beq_eq_false_iff_ne.mpr (Ne.symm h3)
  have e4 : (strL "right" == d) = false := beq_eq_false_iff_ne.mpr (Ne.symm h4)
  simp [lookupCoords, swipe_coords, List.find?, e1, e2, e3, e4]

/-- C7: `swipe("up")`, `swipe("down")`, `swipe("left")` and `swipe("right")`
each resolve to a fixed coordinate quadruple and invoke the device transport
with exactly the corresponding `adb` command; the four quadruples are pairwise
distinct; for any other direction string `swipe` returns False without
invoking the transport, recording the invalid-direction error. -/
theorem c7_swipe (runCmd : List Str → Bool) (d : Str) :
    MobileDriver.swipe runCmd (strL "up") =
      ⟨some (swipeCmd 500 1500 500 500), runCmd (swipeCmd 500 1500 500 500), none⟩ ∧
    MobileDriver.swipe runCmd (strL "down") =
      ⟨some (swipeCmd 500 500 500 1500), runCmd (swipeCmd 500 500 500 1500), none⟩ ∧
    MobileDriver.swipe runCmd (strL "left") =
      ⟨some (swipeCmd 800 1000 200 1000), runCmd (swipeCmd 800 1000 200 1000), none⟩ ∧
    MobileDriver.swipe runCmd (strL "right") =
      ⟨some (swipeCmd 200 1000 800 1000), runCmd (swipeCmd 200 1000 800 1000), none⟩ ∧
    ([(500, 1500, 500, 500), (500, 500, 500, 1500),
      (800, 1000, 200, 1000), (200, 1000, 800, 1000)] :
        List (Nat × Nat × Nat × Nat)).Pairwise (· ≠ ·) ∧
    (d ≠ strL "up" → d ≠ strL "down" → d ≠ strL "left" → d ≠ strL "right" →
      MobileDriver.swipe runCmd d =
        ⟨none, false, some (strL "Invalid swipe direction: " ++ d)⟩) := by
  refine ⟨rfl, rfl, rfl, rfl, by decide, fun h1 h2 h3 h4 => ?_⟩
  rw [MobileDriver.swipe, lookupCoords_eq_none d h1 h2 h3 h4]

/-- Witness for C7 at the concrete out-of-vocabulary direction "diagonal". -/
theorem c7_swipe_witness :
    MobileDriver.swipe (fun _ => false) (strL "diagonal") =
      ⟨none, false, some (strL "Invalid swipe direction: " ++ strL "diagonal")⟩ :=
  (c7_swipe (fun _ => false) (strL "diagonal")).2.2.2.2.2
    (by decide) (by decide) (by decide) (by decide)

/-- C6: for each of the 7 recognized action variants, `execute_action` invokes
exactly the corresponding device-transport call with the arguments taken from
the action dict (a fixed-duration sleep and success for `wait`, a no-op
success for `done`), and returns the transport's boolean result; for any
unrecognized action type it invokes no transport call and returns False. -/
theorem c6_execute_action (drv : DriverCall → Bool) (action : Dict) (ty0 : Str)
    (hty : dictGet action (strL "type") (.jstr []) = .jstr ty0) :
    (lowerStr ty0 = strL "tap" →
      execute_action drv action =
        some ⟨[.tap (dictGet action (strL "value") (.jstr []))], false,
              drv (.tap (dictGet action (strL "value") (.jstr [])))⟩) ∧
    (lowerStr ty0 = strL "tap_point" →
      execute_action drv action =
        some ⟨[.tap_point (dictGet action (strL "x") (.jnum (strL "0")))
                          (dictGet action (strL "y") (.jnum (strL "0")))], false,
              drv (.tap_point (dictGet action (strL "x") (.jnum (strL "0")))
                              (dictGet action (strL "y") (.jnum (strL "0"))))⟩) ∧
    (lowerStr ty0 = strL "input" →
      execute_action drv action =
        some ⟨[.input_text (dictGet action (strL "value") (.jstr []))], false,
              drv (.input_text (dictGet action (strL "value") (.jstr [])))⟩) ∧
    (lowerStr ty0 = strL "back" →
      execute_action drv action = some ⟨[.go_back], false, drv .go_back⟩) ∧
    (lowerStr ty0 = strL "swipe" →
      execute_action drv action =
        some ⟨[.swipeDir (dictGet action (strL "value") (.jstr []))], false,
              drv (.swipeDir (dictGet action (strL "value") (.jstr [])))⟩) ∧
    (lowerStr ty0 = strL "wait" →
      execute_action drv action = some ⟨[], true, true⟩) ∧
    (lowerStr ty0 = strL "done" →
      execute_action drv action = some ⟨[], false, true⟩) ∧
    (lowerStr ty0 ∉ [strL "tap", strL "tap_point", strL "input", strL "back",
                     strL "swipe", strL "wait", strL "done"] →
      execute_action drv action = some ⟨[], false, false⟩) := by
  refine ⟨fun h => ?_, fun h => ?_, fun h => ?_, fun h => ?_, fun h => ?_,
         fun h => ?_, fun h => ?_, fun h => ?_⟩
  · simp [execute_action, hty, h]
  · simp [execute_action, hty, h, show ¬strL "tap_point" = strL "tap" by decide]
  · simp [execute_action, hty, h, show ¬strL "input" = strL "tap" by decide,
      show ¬strL "input" = strL "tap_point" by decide]
  · simp [execute_action, hty, h, show ¬strL "back" = strL "tap" by decide,
      show ¬strL "back" = strL "tap_point" by decide,
      show ¬strL "back" = strL "input" by decide]
  · simp [execute_action, hty, h, show ¬strL "swipe" = strL "tap" by decide,
      show ¬strL "swipe" = strL "tap_point" by decide,
      show ¬strL "swipe" = strL "input" by decide,
      show ¬strL "swipe" = strL "back" by decide]
  · simp [execute_action, hty, h, show ¬strL "wait" = strL "tap" by decide,
      show ¬strL "wait" = strL "tap_point" by decide,
      show ¬strL "wait" = strL "input" by decide,
      show ¬strL "wait" = strL "back" by decide,
      show ¬strL "wait" = strL "swipe" by decide]
  · simp [execute_action, hty, h, show ¬strL "done" = strL "tap" by decide,
      show ¬strL "done" = strL "tap_point" by decide,
      show ¬strL "done" = strL "input" by decide,
      show ¬strL "done" = strL "back" by decide,
      show ¬strL "done" = strL "swipe" by decide,
      show ¬strL "done" = strL "wait" by decide]
  · simp only [List.mem_cons, List.not_mem_nil, not_or, or_false] at h
    obtain ⟨n1, n2, n3, n4, n5, n6, n7⟩ := h
    simp [execute_action, hty, n1, n2, n3, n4, n5, n6, n7]

/-- Witness for C6 at a concrete `tap` action. -/
theorem c6_execute_action_witness :
    execute_action (fun _ => true) tapAction =
      some ⟨[.tap (.jstr (strL "Login"))], false, true⟩ :=
  (c6_execute_action (fun _ => true) tapAction (strL "tap") rfl).1 rfl

/-- The last attempt number of the retry runner is bounded by the starting
attempt number plus the retries allowed. -/
theorem retryRun_last_le (att : Nat → Except BrainExn JVal) :
    ∀ fuel n, (retryRun att fuel n).2.1 ≤ n + fuel := by
  intro fuel
  induction fuel with
  | zero => intro n; simp [retryRun]
  | succ f ih =>
    intro n
    simp only [retryRun]
    cases h : att n with
    | ok v => simp
    | error e =>
      by_cases ht : transientExn e = true
      · simp only [ht, if_true]
        calc (retryRun att f (n + 1)).2.1 ≤ n + 1 + f := ih (n + 1)
          _ ≤ n + (f + 1) := by omega
      · simp [ht]

/-- C2: per `decide` call at most 3 attempts are made; an attempt is retried
only on a transient fault (`TimeoutError`/`ConnectionError`), with the
exponential back-off schedule 2, 4 (clamped into [2, 10]); any other
exception propagates immediately without a further attempt; after 3
consecutive transient faults the last fault propagates; if an attempt
succeeds after 2 faults its Decision is returned and no further attempts
occur. -/
theorem c2_retry_policy (att : Nat → Except BrainExn JVal) :
    (get_next_action att).2.1 ≤ 3 ∧
    (∀ d, att 1 = .ok d → get_next_action att = (.ok d, 1, [])) ∧
    (∀ e, att 1 = .error e → transientExn e = false →
      get_next_action att = (.error e, 1, [])) ∧
    (∀ e1 e2, att 1 = .error e1 → transientExn e1 = true →
      att 2 = .error e2 → transientExn e2 = false →
      get_next_action att = (.error e2, 2, [2])) ∧
    (∀ e1 e2 e3, att 1 = .error e1 → transientExn e1 = true →
      att 2 = .error e2 → transientExn e2 = true → att 3 = .error e3 →
      get_next_action att = (.error e3, 3, [2, 4])) ∧
    (∀ e1 e2 d, att 1 = .error e1 → transientExn e1 = true →
      att 2 = .error e2 → transientExn e2 = true → att 3 = .ok d →
      get_next_action att = (.ok d, 3, [2, 4])) ∧
    waitExp 1 = 2 ∧ waitExp 2 = 4 ∧ (∀ n, 2 ≤ waitExp n ∧ waitExp n ≤ 10) := by
  refine ⟨retryRun_last_le att 2 1, fun d h1 => ?_, fun e h1 t1 => ?_,
         fun e1 e2 h1 t1 h2 t2 => ?_, fun e1 e2 e3 h1 t1 h2 t2 h3 => ?_,
         fun e1 e2 d h1 t1 h2 t2 h3 => ?_, rfl, rfl, fun n => ?_⟩
  · simp [get_next_action, retryRun, h1]
  · simp [get_next_action, retryRun, h1, t1]
  · simp [get_next_action, retryRun, h1, t1, h2, t2, waitExp]
  · simp [get_next_action, retryRun, h1, t1, h2, t2, h3, waitExp]
  · simp [get_next_action, retryRun, h1, t1, h2, t2, h3, waitExp]
  · exact ⟨Nat.le_max_left _ _, Nat.max_le.mpr ⟨by norm_num, Nat.min_le_right _ _⟩⟩

/-- Witness for C2: two timeouts then a success returns the Decision on the
third attempt with back-offs 2 and 4. -/
theorem c2_retry_policy_witness :
    get_next_action att2fail = (.ok (.jbool true), 3, [2, 4]) :=
  (c2_retry_policy att2fail).2.2.2.2.2.1 .timeoutError .timeoutError (.jbool true)
    rfl rfl rfl rfl rfl

/-- The membership test fails with an exception only on non-containers, and
then with a `TypeError`, uniformly in the field. -/
theorem pyContains_error_uniform (f : Str) (v : JVal) (e : PyErr)
    (h : pyContains f v = .error e) :
    (∃ m, e = .typeError m) ∧ ∀ f', pyContains f' v = .error e := by
  cases v <;> simp_all [pyContains] <;> exact ⟨_, h.symm⟩

/-- A successful field-check loop means the membership test holds for every
field in the list. -/
theorem checkFields_ok_iff (v : JVal) :
    ∀ fs, checkFields v fs = .ok () ↔ ∀ f ∈ fs, pyContains f v = .ok true := by
  intro fs
  induction fs with
  | nil => simp [checkFields]
  | cons f fs ih =>
    simp only [checkFields]
    cases hp : pyContains f v with
    | error e => simp [hp]
    | ok b => cases b <;> simp [hp, ih]

/-- The field-check loop raises `ValueError` exactly when the membership test
is false for some field in the list. -/
theorem checkFields_ve_iff (v : JVal) :
    ∀ fs, (∃ m, checkFields v fs = .error (.valueError m)) ↔
      ∃ f ∈ fs, pyContains f v = .ok false := by
  intro fs
  induction fs with
  | nil => simp [checkFields]
  | cons f fs ih =>
    simp only [checkFields]
    cases hp : pyContains f v with
    | error e =>
      obtain ⟨⟨m, hm⟩, huni⟩ := pyContains_error_uniform f v e hp
      subst hm
      constructor
      · rintro ⟨m2, hm2⟩
        exact absurd hm2 (by simp)
      · rintro ⟨f2, hf2, hok⟩
        rcases List.mem_cons.mp hf2 with rfl | hmem
        · rw [hp] at hok; cases hok
        · rw [huni f2] at hok; cases hok
    | ok b =>
      cases b
      · simp [hp]
      · simp [hp, ih]

/-- With a non-container value the field-check loop raises `TypeError`. -/
theorem checkFields_te (v : JVal) (hv : isContainer v = false) (f : Str)
    (fs : List Str) :
    ∃ m, checkFields v (f :: fs) = .error (.typeError m) := by
  cases v <;> simp_all [pyContains, checkFields, isContainer]

/-- With a non-container value the required-field check raises `TypeError`. -/
theorem requiredFieldCheck_te (v : JVal) (hv : isContainer v = false) :
    ∃ m, requiredFieldCheck v = .error (.typeError m) :=
  checkFields_te v hv (strL "reasoning")
    [strL "action", strL "ux_audit", strL "goal_achieved"]

/-- Evaluation of `_parse_response` when decoding fails. -/
theorem parse_response_none (st : BrainState) (raw : Str) (hraw : raw ≠ [])
    (hj : jsonLoads (extractContent raw) = none) :
    parse_response st raw =
      (.error (.valueError (strL "Invalid JSON response")),
       { st with last_raw_response := some raw }) := by
  simp [parse_response, hraw, hj]

/-- Evaluation of `_parse_response` when decoding succeeds and the field
check raises. -/
theorem parse_response_some_err (st : BrainState) (raw : Str) (v : JVal)
    (e : PyErr) (hraw : raw ≠ []) (hj : jsonLoads (extractContent raw) = some v)
    (hc : requiredFieldCheck v = .error e) :
    parse_response st raw =
      (.error e, { last_response := some v, last_raw_response := some raw }) := by
  simp [parse_response, hraw, hj, hc]

/-- Evaluation of `_parse_response` when decoding succeeds and the field
check passes. -/
theorem parse_response_some_ok (st : BrainState) (raw : Str) (v : JVal)
    (hraw : raw ≠ []) (hj : jsonLoads (extractContent raw) = some v)
    (hc : requiredFieldCheck v = .ok ()) :
    parse_response st raw =
      (.ok v, { last_response := some v, last_raw_response := some raw }) := by
  simp [parse_response, hraw, hj, hc]

/-- C10: `_parse_response` overwrites the last-raw diagnostic with its input
before any validation; it overwrites the last-parsed diagnostic as soon as
JSON decoding succeeds and before the required-field check; consequently,
after a normalization that fails on a missing required field, both
diagnostics hold the failing response — they are not rolled back on error. -/
theorem c10_diagnostics (st : BrainState) (raw : Str) :
    (parse_response st raw).2.last_raw_response = some raw ∧
    (∀ p, jsonLoads (extractContent raw) = some p →
      (parse_response st raw).2.last_response = some p) ∧
    (∀ p m, jsonLoads (extractContent raw) = some p →
      requiredFieldCheck p = .error (.valueError m) →
      (parse_response st raw).1 = .error (.valueError m) ∧
      (parse_response st raw).2.last_raw_response = some raw ∧
      (parse_response st raw).2.last_response = some p) := by
  by_cases hraw : raw = []
  · subst hraw
    have hn : jsonLoads (extractContent []) = none := rfl
    refine ⟨rfl, ?_, ?_⟩
    · intro p hp; rw [hn] at hp; exact Option.noConfusion hp
    · intro p m hp; rw [hn] at hp; exact Option.noConfusion hp
  · cases hj : jsonLoads (extractContent raw) with
    | none =>
      rw [parse_response_none st raw hraw hj]
      exact ⟨rfl, fun p hp => Option.noConfusion hp,
             fun p m hp => absurd hp (fun h => Option.noConfusion h)⟩
    | some v =>
      refine ⟨?_, ?_, ?_⟩
      · cases hc : requiredFieldCheck v with
        | error e => rw [parse_response_some_err st raw v e hraw hj hc]
        | ok u => cases u; rw [parse_response_some_ok st raw v hraw hj hc]
      · intro p hp
        obtain rfl : v = p := Option.some.inj hp
        cases hc : requiredFieldCheck v with
        | error e => rw [parse_response_some_err st raw v e hraw hj hc]
        | ok u => cases u; rw [parse_response_some_ok st raw v hraw hj hc]
      · intro p m hp hm
        obtain rfl : v = p := Option.some.inj hp
        rw [parse_response_some_err st raw v (.valueError m) hraw hj hm]
        exact ⟨rfl, rfl, rfl⟩

/-- Witness for C10 at the concrete raw response `{}`: decoding succeeds, the
field check fails on `reasoning`, and both diagnostics hold the failing
response. -/
theorem c10_diagnostics_witness :
    (parse_response BrainState.init (strL "\x7b\x7d")).1 =
      .error (.valueError (strL "Missing required field: reasoning")) ∧
    (parse_response BrainState.init (strL "\x7b\x7d")).2.last_raw_response =
      some (strL "\x7b\x7d") ∧
    (parse_response BrainState.init (strL "\x7b\x7d")).2.last_response =
      some (.jobj []) :=
  (c10_diagnostics BrainState.init (strL "\x7b\x7d")).2.2 (.jobj [])
    (strL "Missing required field: reasoning") rfl rfl

/-- C1 (amended): normalization fails with `MalformedResponse` (`ValueError`)
exactly when the raw text is empty, or no well-formed JSON value can be
extracted (including after code-fence stripping), or the extracted value is a
container (dict, list or string) for which the Python membership test is
false for one of the four required fields; when the extracted value is a
non-container (number, boolean or null) the required-field check raises
`TypeError` instead; on success the membership test holds for all four
required fields. -/
theorem c1_normalize_contract (st : BrainState) (raw : Str) :
    ((∃ m, (parse_response st raw).1 = .error (.valueError m)) ↔
      (raw = [] ∨ jsonLoads (extractContent raw) = none ∨
        ∃ v, jsonLoads (extractContent raw) = some v ∧
          ∃ f ∈ required_fields, pyContains f v = .ok false)) ∧
    (∀ v, jsonLoads (extractContent raw) = some v → isContainer v = false →
      ∃ m, (parse_response st raw).1 = .error (.typeError m)) ∧
    (∀ v, (parse_response st raw).1 = .ok v →
      jsonLoads (extractContent raw) = some v ∧
      ∀ f ∈ required_fields, pyContains f v = .ok true) := by
  by_cases hraw : raw = []
  · subst hraw
    have hn : jsonLoads (extractContent []) = none := rfl
    refine ⟨iff_of_true ⟨_, rfl⟩ (Or.inl rfl), ?_, ?_⟩
    · intro v hv; rw [hn] at hv; exact Option.noConfusion hv
    · intro v hv; exact Except.noConfusion hv
  · cases hj : jsonLoads (extractContent raw) with
    | none =>
      rw [parse_response_none st raw hraw hj]
      refine ⟨iff_of_true ⟨_, rfl⟩ (Or.inr (Or.inl rfl)), ?_, ?_⟩
      · intro v hv; exact Option.noConfusion hv
      · intro v hv; exact Except.noConfusion hv
    | some w =>
      have hrfc : requiredFieldCheck w = checkFields w required_fields := rfl
      cases hc : requiredFieldCheck w with
      | error e =>
        rw [parse_response_some_err st raw w e hraw hj hc]
        cases e with
        | valueError m =>
          refine ⟨iff_of_true ⟨m, rfl⟩ (Or.inr (Or.inr ⟨w, rfl, ?_⟩)), ?_, ?_⟩
          · exact (checkFields_ve_iff w required_fields).mp ⟨m, hrfc ▸ hc⟩
          · intro v hv hcont
            obtain rfl : w = v := Option.some.inj hv
            obtain ⟨m2, hm2⟩ := requiredFieldCheck_te w hcont
            rw [hc] at hm2
            exact absurd hm2 (by simp)
          · intro v hv; exact Except.noConfusion hv
        | typeError m =>
          refine ⟨iff_of_false ?_ ?_, ?_, ?_⟩
          · rintro ⟨m2, hm2⟩
            exact absurd hm2 (by simp)
          · rintro (h | h | ⟨v, hv, hf⟩)
            · exact hraw h
            · exact Option.noConfusion h
            · obtain rfl : w = v := Option.some.inj hv
              obtain ⟨m2, hm2⟩ := (checkFields_ve_iff w required_fields).mpr hf
              rw [← hrfc, hc] at hm2
              exact absurd hm2 (by simp)
          · intro v hv hcont
            obtain rfl : w = v := Option.some.inj hv
            exact ⟨m, rfl⟩
          · intro v hv; exact Except.noConfusion hv
      | ok u =>
        cases u
        rw [parse_response_some_ok st raw w hraw hj hc]
        refine ⟨iff_of_false ?_ ?_, ?_, ?_⟩
        · rintro ⟨m2, hm2⟩
          exact Except.noConfusion hm2
        · rintro (h | h | ⟨v, hv, f, hfmem, hf⟩)
          · exact hraw h
          · exact Option.noConfusion h
          · obtain rfl : w = v := Option.some.inj hv
            have := (checkFields_ok_iff w required_fields).mp (hrfc ▸ hc) f hfmem
            rw [this] at hf
            exact absurd (Except.ok.inj hf) (by simp)
        · intro v hv hcont
          obtain rfl : w = v := Option.some.inj hv
          obtain ⟨m2, hm2⟩ := requiredFieldCheck_te w hcont
          rw [hc] at hm2
          exact Except.noConfusion hm2
        · intro v hv
          obtain rfl : w = v := Except.ok.inj hv
          exact ⟨rfl, (checkFields_ok_iff w required_fields).mp (hrfc ▸ hc)⟩

/-- Counterexample for C1 as stated: a raw response that is a JSON string
(not a JSON object) containing the four field names as substrings is accepted
by `_parse_response`, although no well-formed JSON object can be extracted
from it — so "fails exactly when ... no well-formed JSON object can be
extracted" is false, and the successful result carries no field record. -/
theorem c1_normalize_counterexample :
    (parse_response BrainState.init jsonStrRaw).1 = .ok jsonStrVal ∧
    jsonLoads (extractContent jsonStrRaw) = some jsonStrVal ∧
    isObj jsonStrVal = false :=
  ⟨rfl, rfl, rfl⟩

/-- Witness for C1: the empty raw response fails with `ValueError`. -/
theorem c1_normalize_witness :
    ∃ m, (parse_response BrainState.init (strL "")).1 =
      .error (.valueError m) :=
  (c1_normalize_contract BrainState.init (strL "")).1.mpr (Or.inl rfl)

/-- One loop iteration under a fully successful environment: the step counter
advances by one, the decision's `goal_achieved` value becomes the loop's, the
step is recorded, and the action is executed exactly when the goal is not
achieved. -/
theorem loopIter_good (env : Nat → StepEnv) (st : LoopState) (d : Dict)
    (hg : GoodStep (env (st.step + 1)) d) :
    ∃ st2, loopIter env st = some st2 ∧
      st2.step = st.step + 1 ∧
      st2.goalAchieved = dictGet d (strL "goal_achieved") (.jbool false) ∧
      st2.reporter.step_count = st.reporter.step_count + 1 ∧
      (∃ en, st2.reporter.entries = st.reporter.entries ++ [en] ∧
        en.step = st.reporter.step_count + 1) ∧
      st2.captureAttempts = st.captureAttempts ++ [(st.step + 1, true)] ∧
      (pyTruthy (dictGet d (strL "goal_achieved") (.jbool false)) = true →
        st2.executed = st.executed) ∧
      (pyTruthy (dictGet d (strL "goal_achieved") (.jbool false)) = false →
        st2.executed.length = st.executed.length + 1) := by
  obtain ⟨hc, he, hd, ⟨akvs, ha, er, hex⟩, ukvs, hu⟩ := hg
  by_cases hgoal : pyTruthy (dictGet d (strL "goal_achieved") (.jbool false)) = true
  · have hiter : loopIter env st = some
        { st with
          step := st.step + 1
          goalAchieved := dictGet d (strL "goal_achieved") (.jbool false)
          reporter := log_step st.reporter akvs
            (dictGet d (strL "reasoning") (.jstr (strL "No reasoning provided")))
            ukvs (some (env (st.step + 1)).latencyMs)
          captureAttempts := st.captureAttempts ++ [(st.step + 1, true)] } := by
      simp only [loopIter, hc, he, hd, ha, hu, hgoal]
      simp
    refine ⟨_, hiter, rfl, rfl, rfl, ⟨_, rfl, rfl⟩, rfl, fun _ => rfl,
      fun hf => ?_⟩
    rw [hgoal] at hf
    exact Bool.noConfusion hf
  · rw [Bool.not_eq_true] at hgoal
    have hiter : loopIter env st = some
        { st with
          step := st.step + 1
          goalAchieved := dictGet d (strL "goal_achieved") (.jbool false)
          reporter := log_step st.reporter akvs
            (dictGet d (strL "reasoning") (.jstr (strL "No reasoning provided")))
            ukvs (some (env (st.step + 1)).latencyMs)
          captureAttempts := st.captureAttempts ++ [(st.step + 1, true)]
          executed := st.executed ++ [(akvs, er.ret)]
          sleeps := st.sleeps ++ [UI_SETTLE_TIME] } := by
      simp only [loopIter, hc, he, hd, ha, hu, hgoal, hex]
      simp
    refine ⟨_, hiter, rfl, rfl, rfl, ⟨_, rfl, rfl⟩, rfl,
      fun ht => ?_, fun _ => by simp⟩
    rw [hgoal] at ht
    exact Bool.noConfusion ht

/-- Every successful loop iteration appends exactly one capture attempt,
carrying the incremented step number. -/
theorem loopIter_captureAttempts (env : Nat → StepEnv) (st st2 : LoopState)
    (h : loopIter env st = some st2) :
    st2.captureAttempts =
      st.captureAttempts ++ [(st.step + 1, (env (st.step + 1)).captureOk)] := by
  simp only [loopIter] at h
  repeat' split at h
  all_goals first
    | exact Option.noConfusion h
    | (cases Option.some.inj h; rfl)

/-- The loop stops as soon as the goal is achieved. -/
theorem runLoop_goal_stop (env : Nat → StepEnv) (m fuel : Nat) (st : LoopState)
    (h : pyTruthy st.goalAchieved = true) :
    runLoop env m (fuel + 1) st = some st := by
  simp [runLoop, h]

/-- Running the loop under an environment that succeeds on every remaining
step with `goal_achieved: false` decisions drives the step counter to the
budget, recording one step per iteration. -/
theorem runLoop_exhaust (env : Nat → StepEnv) (m : Nat) :
    ∀ fuel st, st.step ≤ m → pyTruthy st.goalAchieved = false →
      (∀ k, st.step < k → k ≤ m → ∃ d, GoodStep (env k) d ∧
        dictGet d (strL "goal_achieved") (.jbool false) = .jbool false) →
      m - st.step < fuel →
      ∃ final, runLoop env m fuel st = some final ∧
        final.step = m ∧ pyTruthy final.goalAchieved = false ∧
        final.reporter.step_count = st.reporter.step_count + (m - st.step) ∧
        final.reporter.entries.length =
          st.reporter.entries.length + (m - st.step) := by
  intro fuel
  induction fuel with
  | zero => intro st h1 h2 h3 h4; omega
  | succ f ih =>
    intro st h1 h2 h3 h4
    by_cases hm : st.step < m
    · obtain ⟨d, hg, hfalse⟩ := h3 (st.step + 1) (by omega) (by omega)
      obtain ⟨st2, hiter, hstep2, hgoal2, hcnt, ⟨en, hen, _⟩, _, _, _⟩ :=
        loopIter_good env st d hg
      have hgoal2' : pyTruthy st2.goalAchieved = false := by
        rw [hgoal2, hfalse]; rfl
      have hred : runLoop env m (f + 1) st = runLoop env m f st2 := by
        simp [runLoop, hm, h2, hiter]
      obtain ⟨final, hrun, hfs, hfg, hfc, hfl⟩ :=
        ih st2 (by omega) hgoal2'
          (fun k hk1 hk2 => h3 k (by omega) hk2) (by omega)
      refine ⟨final, by rw [hred]; exact hrun, hfs, hfg, ?_, ?_⟩
      · rw [hfc, hcnt]; omega
      · rw [hfl, hen]; simp; omega
    · have hstep : st.step = m := by omega
      refine ⟨st, by simp [runLoop, hm], hstep, h2, by omega, by omega⟩

/-- C3: with step budget `m` (3 in the spec's scenario, `MAX_STEPS` in
general), if every iteration's capture, encode and decide succeed and every
Decision has `goal_achieved` false, the loop terminates after exactly `m`
recorded steps in terminal state `Completed(false)`, with the step-limit
message printed and the final notes reporting `m` steps. -/
theorem c3_step_budget (env : Nat → StepEnv) (goal : Str) (m fuel : Nat)
    (hgood : ∀ k, 1 ≤ k → k ≤ m → ∃ d, GoodStep (env k) d ∧
      dictGet d (strL "goal_achieved") (.jbool false) = .jbool false)
    (hfuel : m < fuel) :
    ∃ res, runSession env goal m fuel = some res ∧
      res.success = false ∧ res.limitNote = true ∧
      res.reporter.entries.length = m ∧ res.summary.total_steps = m ∧
      res.notesSteps = m ∧ res.final.step = m := by
  obtain ⟨final, hrun, hstep, hgoal, hcnt, hlen⟩ :=
    runLoop_exhaust env m fuel (initLoopState goal) (Nat.zero_le m) rfl
      (fun k hk1 hk2 => hgood k (by omega) hk2) (by omega)
  refine ⟨finalizeSession final, ?_, ?_, ?_, ?_, ?_, ?_, hstep⟩
  · show (runLoop env m fuel (initLoopState goal)).map finalizeSession = _
    rw [hrun]; rfl
  · show pyTruthy final.goalAchieved = false
    exact hgoal
  · show (!pyTruthy final.goalAchieved) = true
    rw [hgoal]; rfl
  · show final.reporter.entries.length = m
    rw [hlen]; simp [initLoopState, start_session, TestReporter.init]
  · show final.reporter.step_count = m
    rw [hcnt]; simp [initLoopState, start_session, TestReporter.init]
  · show final.step = m
    exact hstep

/-- Witness for C3: budget 3 with an all-success, never-achieved environment
terminates with exactly 3 recorded steps and `Completed(false)`. -/
theorem c3_step_budget_witness :
    ∃ res, runSession (fun _ => goodEnvNo) (strL "g") 3 4 = some res ∧
      res.success = false ∧ res.limitNote = true ∧
      res.reporter.entries.length = 3 ∧ res.summary.total_steps = 3 ∧
      res.notesSteps = 3 ∧ res.final.step = 3 :=
  c3_step_budget (fun _ => goodEnvNo) (strL "g") 3 4
    (fun k _ _ => ⟨decisionNo, ⟨rfl, rfl, rfl, ⟨_, rfl, _, rfl⟩, _, rfl⟩, rfl⟩)
    (by omega)

/-- C4: if the Decision for a step has `goal_achieved` true, the agent loop
records that step via the Recorder, executes no device action for it, and
terminates immediately in terminal state `Completed(true)`. -/
theorem c4_goal_true (env : Nat → StepEnv) (m fuel : Nat) (st : LoopState)
    (d : Dict) (hstep : st.step < m) (hgoal : pyTruthy st.goalAchieved = false)
    (hg : GoodStep (env (st.step + 1)) d)
    (htrue : dictGet d (strL "goal_achieved") (.jbool false) = .jbool true) :
    ∃ st2, runLoop env m (fuel + 2) st = some st2 ∧
      pyTruthy st2.goalAchieved = true ∧
      (finalizeSession st2).success = true ∧
      (∃ en, st2.reporter.entries = st.reporter.entries ++ [en] ∧
        en.step = st.reporter.step_count + 1) ∧
      st2.executed = st.executed ∧
      st2.step = st.step + 1 := by
  obtain ⟨st2, hiter, hstep2, hgoal2, _, hen, _, hexec, _⟩ :=
    loopIter_good env st d hg
  have hg2 : pyTruthy st2.goalAchieved = true := by rw [hgoal2, htrue]; rfl
  refine ⟨st2, ?_, hg2, hg2, hen, hexec (by rw [htrue]; rfl), hstep2⟩
  have hred : runLoop env m (fuel + 2) st = runLoop env m (fuel + 1) st2 := by
    simp [runLoop, hstep, hgoal, hiter]
  rw [hred]
  exact runLoop_goal_stop env m fuel st2 hg2

/-- Witness for C4 from the initial state with a goal-achieving decision. -/
theorem c4_goal_true_witness :
    ∃ st2, runLoop (fun _ => goodEnvYes) 50 2 (initLoopState (strL "g")) =
        some st2 ∧
      pyTruthy st2.goalAchieved = true ∧
      (finalizeSession st2).success = true ∧
      (∃ en, st2.reporter.entries =
        (initLoopState (strL "g")).reporter.entries ++ [en] ∧
        en.step = (initLoopState (strL "g")).reporter.step_count + 1) ∧
      st2.executed = (initLoopState (strL "g")).executed ∧
      st2.step = (initLoopState (strL "g")).step + 1 :=
  c4_goal_true (fun _ => goodEnvYes) 50 0 (initLoopState (strL "g")) decisionYes
    (by decide) rfl ⟨rfl, rfl, rfl, ⟨_, rfl, _, rfl⟩, _, rfl⟩ rfl

/-- Counterexample for C5 as stated: in a concrete run the capture attempt
that fails runs under step number 1, and the retry capture attempt runs under
step number 2 — not the same step index. -/
theorem c5_counterexample :
    (loopIter envCaptureRetry (initLoopState (strL "g"))).map
        (fun st => st.captureAttempts) = some [(1, false)] ∧
    ((loopIter envCaptureRetry (initLoopState (strL "g"))).bind
        (fun st => loopIter envCaptureRetry st)).map
        (fun st => st.captureAttempts) = some [(1, false), (2, true)] ∧
    (2 : Nat) ≠ 1 :=
  ⟨rfl, rfl, by decide⟩

/-- C5 (amended): when screen capture fails, the loop sleeps briefly and
re-enters the loop without recording anything, but the step counter has
already been incremented and is incremented again, so the retry capture
attempt runs under the next step index (the failed attempt's index plus one)
and the failure consumes one unit of the step budget. -/
theorem c5_capture_retry (env : Nat → StepEnv) (st : LoopState)
    (hc : (env (st.step + 1)).captureOk = false) :
    loopIter env st = some
      { st with
        step := st.step + 1
        captureAttempts := st.captureAttempts ++ [(st.step + 1, false)]
        sleeps := st.sleeps ++ [1] } ∧
    (∀ st2 st3, loopIter env st = some st2 → loopIter env st2 = some st3 →
      st3.captureAttempts = st.captureAttempts ++
        [(st.step + 1, false), (st.step + 2, (env (st.step + 2)).captureOk)]) := by
  have h1 : loopIter env st = some
      { st with
        step := st.step + 1
        captureAttempts := st.captureAttempts ++ [(st.step + 1, false)]
        sleeps := st.sleeps ++ [1] } := by
    simp only [loopIter, hc]
    simp
  refine ⟨h1, fun st2 st3 h2 h3 => ?_⟩
  rw [h1] at h2
  cases Option.some.inj h2
  have e3 := loopIter_captureAttempts env _ st3 h3
  simpa using e3

/-- Witness for C5 (amended) on the concrete capture-retry environment. -/
theorem c5_capture_retry_witness :
    loopIter envCaptureRetry (initLoopState (strL "g")) =
      some { initLoopState (strL "g") with
        step := 1
        captureAttempts := [(1, false)]
        sleeps := [1] } :=
  (c5_capture_retry envCaptureRetry (initLoopState (strL "g")) rfl).1

/-- `splitOnNl` never returns the empty list. -/
theorem splitOnNl_ne_nil (s : Str) : splitOnNl s ≠ [] := by
  induction s with
  | nil => simp [splitOnNl]
  | cons c rest ih =>
    by_cases hc : c = '\n'
    · subst hc; simp [splitOnNl]
    · simp only [splitOnNl, if_neg hc]
      cases hx : splitOnNl rest with
      | nil => exact absurd hx ih
      | cons l ls => simp

/-- Splitting on newlines distributes over an append with an explicit
separating newline. -/
theorem splitOnNl_append (x y : Str) :
    splitOnNl (x ++ '\n' :: y) = splitOnNl x ++ splitOnNl y := by
  induction x with
  | nil => simp [splitOnNl]
  | cons c x ih =>
    by_cases hc : c = '\n'
    · subst hc
      simp [splitOnNl, ih]
    · simp only [List.cons_append, splitOnNl, if_neg hc, List.append_eq]
      rw [ih]
      cases hx : splitOnNl x with
      | nil => exact absurd hx (splitOnNl_ne_nil x)
      | cons l ls => simp

/-- Joining the newline-split lines reproduces the original text. -/
theorem joinNl_splitOnNl (j : Str) : joinNl (splitOnNl j) = j := by
  induction j with
  | nil => rfl
  | cons c rest ih =>
    by_cases hc : c = '\n'
    · subst hc
      simp only [splitOnNl, if_pos rfl]
      cases hx : splitOnNl rest with
      | nil => exact absurd hx (splitOnNl_ne_nil rest)
      | cons l ls =>
        rw [hx] at ih
        simp [joinNl, ih]
    · simp only [splitOnNl, if_neg hc]
      cases hx : splitOnNl rest with
      | nil => exact absurd hx (splitOnNl_ne_nil rest)
      | cons l ls =>
        rw [hx] at ih
        cases ls with
        | nil => simp_all [joinNl]
        | cons l2 ls2 => simp_all [joinNl]

/-- The fence loop keeps exactly the interior lines: starting inside a block,
fence-free lines are kept until the closing marker, after which nothing
remains. -/
theorem stripFenceLines_wrap (Ls : List Str)
    (h : ∀ l ∈ Ls, startsW (strL "```") l = false) :
    stripFenceLines true (Ls ++ [strL "```"]) = Ls := by
  induction Ls with
  | nil => decide
  | cons l ls ih =>
    have hl : startsW (strL "```") l = false := h l (by simp)
    simp only [List.cons_append, stripFenceLines, hl, List.append_eq]
    simp only [Bool.false_eq_true, if_false, if_true]
    rw [ih (fun l2 hl2 => h l2 (by simp [hl2]))]

/-- `stripRight` leaves a string ending in a non-whitespace character
unchanged. -/
theorem stripRight_append_last (xs : Str) (c : Char) (hc : pyWsChar c = false) :
    stripRight (xs ++ [c]) = xs ++ [c] := by
  induction xs with
  | nil => simp [stripRight, hc]
  | cons x xs ih =>
    simp only [List.cons_append, stripRight, List.append_eq]
    rw [ih]
    cases hxs : xs ++ [c] with
    | nil => exact absurd hxs (by simp)
    | cons a t => simp

/-- The fenced text is already stripped: it starts and ends with a backtick. -/
theorem pyStrip_fenceWrap (j : Str) : pyStrip (fenceWrap j) = fenceWrap j := by
  have hshape : fenceWrap j =
      (strL "```json" ++ '\n' :: j ++ ['\n', '`', '`']) ++ ['`'] := by
    simp [fenceWrap, List.append_assoc,
      show strL "```" = ['`', '`', '`'] from rfl]
  have hdw : List.dropWhile pyWsChar (fenceWrap j) = fenceWrap j := by
    rw [show fenceWrap j =
      '`' :: (strL "``json" ++ '\n' :: (j ++ '\n' :: strL "```")) from rfl]
    rw [List.dropWhile_cons]
    simp [show pyWsChar '`' = false from rfl]
  show stripRight (List.dropWhile pyWsChar (fenceWrap j)) = fenceWrap j
  rw [hdw, hshape, stripRight_append_last _ '`' (by decide)]

/-- The lexer rejects a backtick at a token start. -/
theorem lexTok_backtick (r : Str) : lexTok ('`' :: r) = none := by
  simp only [lexTok,
    show ('`' == '{') = false from rfl, show ('`' == '}') = false from rfl,
    show ('`' == '[') = false from rfl, show ('`' == ']') = false from rfl,
    show ('`' == ':') = false from rfl, show ('`' == ',') = false from rfl,
    show ('`' == '"') = false from rfl,
    show strL "true" = 't' :: strL "rue" from rfl,
    show strL "false" = 'f' :: strL "alse" from rfl,
    show strL "null" = 'n' :: strL "ull" from rfl,
    show strL "NaN" = 'N' :: strL "aN" from rfl,
    show strL "Infinity" = 'I' :: strL "nfinity" from rfl,
    show strL "-Infinity" = '-' :: strL "Infinity" from rfl,
    startsW,
    show ('t' == '`') = false from rfl, show ('f' == '`') = false from rfl,
    show ('n' == '`') = false from rfl, show ('N' == '`') = false from rfl,
    show ('I' == '`') = false from rfl, show ('-' == '`') = false from rfl,
    Bool.false_and, Bool.false_eq_true, if_false]
  simp [lexNum, lexInt, show ('`' == '0') = false from rfl,
    show Char.isDigit '`' = false from rfl,
    show ¬('`' : Char) = '-' from by decide]

/-- No text starting with a backtick decodes as JSON. -/
theorem jsonLoads_backtick (r : Str) : jsonLoads ('`' :: r) = none := by
  simp [jsonLoads, lexJson, show jsonWsChar '`' = false from rfl,
    lexTok_backtick]

/-- A true `startswith "```"` test exposes three leading backticks. -/
theorem startsW_fence3 (s : Str) (h : startsW (strL "```") s = true) :
    ∃ z, s = '`' :: '`' :: '`' :: z := by
  rcases s with _ | ⟨a, _ | ⟨b, _ | ⟨c0, z⟩⟩⟩
  · exact absurd h (by decide)
  · exact absurd h (by simp [startsW, show strL "```" = '`' :: strL "``" from rfl,
      show strL "``" = '`' :: strL "`" from rfl])
  · exact absurd h (by simp [startsW, show strL "```" = '`' :: strL "``" from rfl,
      show strL "``" = '`' :: strL "`" from rfl,
      show strL "`" = '`' :: ([] : Str) from rfl])
  · simp only [show strL "```" = '`' :: '`' :: '`' :: ([] : Str) from rfl,
      startsW, Bool.and_eq_true, beq_iff_eq] at h
    obtain ⟨h1, h2, h3, _⟩ := h
    exact ⟨z, by rw [← h1, ← h2, ← h3]⟩

/-- `startswith` characterized as prefix decomposition. -/
theorem startsW_iff_exists (p : Str) :
    ∀ s, startsW p s = true ↔ ∃ z, s = p ++ z := by
  induction p with
  | nil => intro s; simp [startsW]
  | cons a p ih =>
    intro s
    cases s with
    | nil =>
      simp only [startsW, List.cons_append]
      constructor
      · intro h; exact Bool.noConfusion h
      · rintro ⟨z, hz⟩; exact List.noConfusion hz
    | cons c t =>
      simp only [startsW, Bool.and_eq_true, beq_iff_eq, ih t, List.cons_append]
      constructor
      · rintro ⟨rfl, z, rfl⟩; exact ⟨z, rfl⟩
      · rintro ⟨z, hz⟩
        injection hz with h1 h2
        exact ⟨h1.symm, z, h2⟩

/-- Decomposition of a maximal digit run. -/
theorem spanDigits_dec (s : Str) :
    s = (spanDigits s).1 ++ (spanDigits s).2 ∧
    (∀ c ∈ (spanDigits s).1, c.isDigit = true) ∧
    (∀ c t, (spanDigits s).2 = c :: t → c.isDigit = false) := by
  induction s with
  | nil => simp [spanDigits]
  | cons c rest ih =>
    cases hsr : spanDigits rest with
    | mk d r =>
      rw [hsr] at ih
      obtain ⟨h1, h2, h3⟩ := ih
      by_cases hc : c.isDigit = true
      · simp only [spanDigits, hc, if_true, hsr]
        exact ⟨by simpa using congrArg (c :: ·) h1,
          by simpa [hc] using h2, by simpa using h3⟩
      · rw [Bool.not_eq_true] at hc
        simp only [spanDigits, hc, Bool.false_eq_true, if_false]
        exact ⟨rfl, by simp, fun c2 t2 ht => by
          injection ht with ha hb; rw [← ha]; exact hc⟩

/-- A digit run followed by a non-digit (or nothing) spans exactly itself. -/
theorem spanDigits_stab (d : Str) (hd : ∀ c ∈ d, c.isDigit = true) :
    ∀ r, (∀ c t, r = c :: t → c.isDigit = false) →
      spanDigits (d ++ r) = (d, r) := by
  induction d with
  | nil =>
    intro r hr
    cases r with
    | nil => rfl
    | cons c t => simp [spanDigits, hr c t rfl]
  | cons x d ih =>
    intro r hr
    have hx : x.isDigit = true := hd x (by simp)
    simp only [List.cons_append, spanDigits, hx, if_true, List.append_eq]
    rw [ih (fun c hc => hd c (by simp [hc])) r hr]

/-- Decomposition and suffix-stability of the integer part of a number. -/
theorem lexInt_dec (s ip r : Str) (h : lexInt s = some (ip, r)) :
    s = ip ++ r ∧ ip ≠ [] ∧ (∀ c ∈ ip, c.isDigit = true) ∧
    (ip = ['0'] ∨ ∀ c t, r = c :: t → c.isDigit = false) ∧
    ∀ r2, (ip = ['0'] ∨ ∀ c t, r2 = c :: t → c.isDigit = false) →
      lexInt (ip ++ r2) = some (ip, r2) := by
  cases s with
  | nil => exact Option.noConfusion h
  | cons c rest =>
    by_cases hc0 : (c == '0') = true
    · have hc : c = '0' := eq_of_beq hc0
      subst hc
      rw [show lexInt ('0' :: rest) = some (['0'], rest) from rfl] at h
      simp only [Option.some.injEq, Prod.mk.injEq] at h
      obtain ⟨h1, h2⟩ := h
      subst h1; subst h2
      exact ⟨rfl, by simp, by simp, Or.inl rfl, fun r2 _ => rfl⟩
    · by_cases hcd : c.isDigit = true
      · cases hsd : spanDigits rest with
        | mk ds r1 =>
          obtain ⟨hd1, hd2, hd3⟩ := spanDigits_dec rest
          rw [hsd] at hd1 hd2 hd3
          dsimp only at hd1 hd2 hd3
          have hred : lexInt (c :: rest) = some (c :: ds, r1) := by
            simp [lexInt, hc0, hcd, hsd]
          rw [hred] at h
          simp only [Option.some.injEq, Prod.mk.injEq] at h
          obtain ⟨h1, h2⟩ := h
          subst h1; subst h2
          have hne : c :: ds ≠ ['0'] := by
            intro he
            injection he with ha hb
            exact hc0 (by rw [ha]; rfl)
          refine ⟨by simpa using congrArg (c :: ·) hd1, by simp,
            by simpa [hcd] using hd2, Or.inr hd3,
            fun r2 hr2 => ?_⟩
          rcases hr2 with hr2 | hr2
          · exact absurd hr2 hne
          · have hthis : lexInt (c :: (ds ++ r2)) = some (c :: ds, r2) := by
              simp [lexInt, hc0, hcd, spanDigits_stab ds hd2 r2 hr2]
            simpa using hthis
      · rw [Bool.not_eq_true] at hcd
        simp [lexInt, hc0, hcd] at h

/-- Decomposition and suffix-stability of the fractional part of a number. -/
theorem lexFrac_dec (s fp r : Str) (h : lexFrac s = some (fp, r)) :
    s = fp ++ r ∧
    (fp = [] ∨ ∃ ds, fp = '.' :: ds ∧ ds ≠ [] ∧ (∀ c ∈ ds, c.isDigit = true) ∧
      (∀ c t, r = c :: t → c.isDigit = false)) ∧
    (fp = [] → r = s) ∧
    ∀ r2, (r2 = [] ∨ ∃ c t t2, r = c :: t ∧ r2 = c :: t2) →
      lexFrac (fp ++ r2) = some (fp, r2) := by
  cases s with
  | nil =>
    rw [show lexFrac [] = some ([], []) from rfl] at h
    simp only [Option.some.injEq, Prod.mk.injEq] at h
    obtain ⟨h1, h2⟩ := h
    subst h1; subst h2
    refine ⟨rfl, Or.inl rfl, fun _ => rfl, fun r2 hr2 => ?_⟩
    rcases hr2 with rfl | ⟨c, t, t2, hct, _⟩
    · rfl
    · exact List.noConfusion hct
  | cons c rest =>
    by_cases hc : (c == '.') = true
    · have hcc : c = '.' := eq_of_beq hc
      subst hcc
      cases hsd : spanDigits rest with
      | mk ds r1 =>
        obtain ⟨hd1, hd2, hd3⟩ := spanDigits_dec rest
        rw [hsd] at hd1 hd2 hd3
        cases ds with
        | nil => simp [lexFrac, hsd] at h
        | cons d0 ds1 =>
          have hred : lexFrac ('.' :: rest) = some ('.' :: d0 :: ds1, r1) := by
            simp [lexFrac, hsd]
          rw [hred] at h
          simp only [Option.some.injEq, Prod.mk.injEq] at h
          obtain ⟨h1, h2⟩ := h
          subst h1; subst h2
          refine ⟨by simpa using congrArg ('.' :: ·) hd1,
            Or.inr ⟨d0 :: ds1, rfl, by simp, by simpa using hd2,
              by simpa using hd3⟩,
            fun hfp => List.noConfusion hfp, fun r2 hr2 => ?_⟩
          have hr2d : ∀ c2 t2, r2 = c2 :: t2 → c2.isDigit = false := by
            intro c2 t2 hct
            rcases hr2 with rfl | ⟨c3, t3, t4, hct3, hct4⟩
            · exact List.noConfusion hct
            · rw [hct] at hct4
              injection hct4 with ha hb
              subst ha
              exact hd3 c2 t3 (by simpa using hct3)
          have hsp : spanDigits (d0 :: (ds1 ++ r2)) = (d0 :: ds1, r2) := by
            simpa using spanDigits_stab (d0 :: ds1) (by simpa using hd2) r2 hr2d
          have hthis : lexFrac ('.' :: ((d0 :: ds1) ++ r2)) =
              some ('.' :: d0 :: ds1, r2) := by
            simp [lexFrac, hsp]
          simpa using hthis
    · have hred : lexFrac (c :: rest) = some ([], c :: rest) := by
        simp [lexFrac, hc]
      rw [hred] at h
      simp only [Option.some.injEq, Prod.mk.injEq] at h
      obtain ⟨h1, h2⟩ := h
      subst h1; subst h2
      refine ⟨rfl, Or.inl rfl, fun _ => rfl, fun r2 hr2 => ?_⟩
      rcases hr2 with rfl | ⟨c3, t3, t4, hct3, hct4⟩
      · rfl
      · injection hct3 with ha hb
        subst ha
        subst hct4
        simp [lexFrac, hc]

/-- Decomposition and suffix-stability of the exponent part of a number. -/
theorem lexExp_dec (s ep r : Str) (h : lexExp s = some (ep, r)) :
    s = ep ++ r ∧
    (ep = [] ∨ ∃ e0 sgn ds, ep = e0 :: (sgn ++ ds) ∧
      (e0 = 'e' ∨ e0 = 'E') ∧ (sgn = [] ∨ sgn = ['+'] ∨ sgn = ['-']) ∧
      ds ≠ [] ∧ (∀ c ∈ ds, c.isDigit = true) ∧
      (∀ c t, r = c :: t → c.isDigit = false)) ∧
    (ep = [] → r = s) ∧
    ∀ r2, (r2 = [] ∨ ∃ c t t2, r = c :: t ∧ r2 = c :: t2) →
      lexExp (ep ++ r2) = some (ep, r2) := by
  cases s with
  | nil =>
    rw [show lexExp [] = some ([], []) from rfl] at h
    simp only [Option.some.injEq, Prod.mk.injEq] at h
    obtain ⟨h1, h2⟩ := h
    subst h1; subst h2
    refine ⟨rfl, Or.inl rfl, fun _ => rfl, fun r2 hr2 => ?_⟩
    rcases hr2 with rfl | ⟨c, t, t2, hct, _⟩
    · rfl
    · exact List.noConfusion hct
  | cons c rest =>
    by_cases hc : (c == 'e' || c == 'E') = true
    · have hce : c = 'e' ∨ c = 'E' := by
        rcases Bool.or_eq_true_iff.mp hc with h1 | h1
        · exact Or.inl (eq_of_beq h1)
        · exact Or.inr (eq_of_beq h1)
      cases rest with
      | nil => simp [lexExp, hc] at h
      | cons s0 r2x =>
        by_cases hs0 : (s0 == '+' || s0 == '-') = true
        · have hss : s0 = '+' ∨ s0 = '-' := by
            rcases Bool.or_eq_true_iff.mp hs0 with h1 | h1
            · exact Or.inl (eq_of_beq h1)
            · exact Or.inr (eq_of_beq h1)
          cases hsd : spanDigits r2x with
          | mk ds r1 =>
            obtain ⟨hd1, hd2, hd3⟩ := spanDigits_dec r2x
            rw [hsd] at hd1 hd2 hd3
            cases ds with
            | nil => simp [lexExp, hc, hs0, hsd] at h
            | cons d0 ds1 =>
              have hred : lexExp (c :: s0 :: r2x) =
                  some (c :: s0 :: d0 :: ds1, r1) := by
                simp [lexExp, hc, hs0, hsd]
              rw [hred] at h
              simp only [Option.some.injEq, Prod.mk.injEq] at h
              obtain ⟨h1, h2⟩ := h
              subst h1; subst h2
              refine ⟨by simpa using congrArg (fun z => c :: s0 :: z) hd1,
                Or.inr ⟨c, [s0], d0 :: ds1, rfl, hce,
                  by rcases hss with rfl | rfl
                     · exact Or.inr (Or.inl rfl)
                     · exact Or.inr (Or.inr rfl),
                  by simp, by simpa using hd2, by simpa using hd3⟩,
                fun hep => List.noConfusion hep, fun r2 hr2 => ?_⟩
              have hr2d : ∀ c2 t2, r2 = c2 :: t2 → c2.isDigit = false := by
                intro c2 t2 hct
                rcases hr2 with rfl | ⟨c3, t3, t4, hct3, hct4⟩
                · exact List.noConfusion hct
                · rw [hct] at hct4
                  injection hct4 with ha hb
                  subst ha
                  exact hd3 c2 t3 (by simpa using hct3)
              have hsp : spanDigits (d0 :: (ds1 ++ r2)) = (d0 :: ds1, r2) := by
                simpa using spanDigits_stab (d0 :: ds1)
                  (by simpa using hd2) r2 hr2d
              have hthis : lexExp (c :: s0 :: ((d0 :: ds1) ++ r2)) =
                  some (c :: s0 :: d0 :: ds1, r2) := by
                simp [lexExp, hc, hs0, hsp]
              simpa using hthis
        · cases hsd : spanDigits (s0 :: r2x) with
          | mk ds r1 =>
            obtain ⟨hd1, hd2, hd3⟩ := spanDigits_dec (s0 :: r2x)
            rw [hsd] at hd1 hd2 hd3
            cases ds with
            | nil => simp [lexExp, hc, hs0, hsd] at h
            | cons d0 ds1 =>
              have hred : lexExp (c :: s0 :: r2x) =
                  some (c :: d0 :: ds1, r1) := by
                simp [lexExp, hc, hs0, hsd]
              rw [hred] at h
              simp only [Option.some.injEq, Prod.mk.injEq] at h
              obtain ⟨h1, h2⟩ := h
              subst h1; subst h2
              refine ⟨by simpa using congrArg (c :: ·) hd1,
                Or.inr ⟨c, [], d0 :: ds1, rfl, hce, Or.inl rfl,
                  by simp, by simpa using hd2, by simpa using hd3⟩,
                fun hep => List.noConfusion hep, fun r2 hr2 => ?_⟩
              have hr2d : ∀ c2 t2, r2 = c2 :: t2 → c2.isDigit = false := by
                intro c2 t2 hct
                rcases hr2 with rfl | ⟨c3, t3, t4, hct3, hct4⟩
                · exact List.noConfusion hct
                · rw [hct] at hct4
                  injection hct4 with ha hb
                  subst ha
                  exact hd3 c2 t3 (by simpa using hct3)
              have hd0 : d0.isDigit = true := by
                have := hd2 d0 (by simp)
                simpa using this
              have hd0s : (d0 == '+' || d0 == '-') = false := by
                have h1 : d0 ≠ '+' := by
                  intro he; rw [he] at hd0; exact Bool.noConfusion hd0
                have h2 : d0 ≠ '-' := by
                  intro he; rw [he] at hd0; exact Bool.noConfusion hd0
                simp [beq_eq_false_iff_ne.mpr h1, beq_eq_false_iff_ne.mpr h2]
              have hsp : spanDigits (d0 :: (ds1 ++ r2)) = (d0 :: ds1, r2) := by
                simpa using spanDigits_stab (d0 :: ds1)
                  (by simpa using hd2) r2 hr2d
              have hthis : lexExp (c :: ((d0 :: ds1) ++ r2)) =
                  some (c :: d0 :: ds1, r2) := by
                simp [lexExp, hc, hd0s, hsp]
              simpa using hthis
    · have hred : lexExp (c :: rest) = some ([], c :: rest) := by
        simp [lexExp, hc]
      rw [hred] at h
      simp only [Option.some.injEq, Prod.mk.injEq] at h
      obtain ⟨h1, h2⟩ := h
      subst h1; subst h2
      refine ⟨rfl, Or.inl rfl, fun _ => rfl, fun r2 hr2 => ?_⟩
      rcases hr2 with rfl | ⟨c3, t3, t4, hct3, hct4⟩
      · rfl
      · injection hct3 with ha hb
        subst ha
        subst hct4
        simp [lexExp, hc]

/-- A nonempty trailing digit run gives a last-digit decomposition. -/
theorem last_digit_append (l1 l2 : Str) (h2 : ∀ c ∈ l2, c.isDigit = true)
    (hne : l2 ≠ []) :
    ∃ l0 cl, l1 ++ l2 = l0 ++ [cl] ∧ cl.isDigit = true := by
  refine ⟨l1 ++ l2.dropLast, l2.getLast hne, ?_, h2 _ (List.getLast_mem hne)⟩
  rw [List.append_assoc, List.dropLast_append_getLast hne]

/-- A digit character is not a newline. -/
theorem digit_ne_nl (x : Char) (hx : x.isDigit = true) : x ≠ '\n' := by
  intro he; subst he; exact absurd hx (by decide)

set_option maxHeartbeats 1600000 in
/-- Decomposition and suffix-stability of a whole number lexeme: the input
splits as lexeme then rest, the lexeme is nonempty, ends in a digit and
contains no newline, and re-lexing the lexeme before any rest with the same
head character yields the same token. -/
theorem lexNum_dec (s lx r : Str) (h : lexNum s = some (lx, r)) :
    s = lx ++ r ∧ lx ≠ [] ∧
    (∃ l0 cl, lx = l0 ++ [cl] ∧ cl.isDigit = true) ∧
    ((∃ d lx2, lx = d :: lx2 ∧ d.isDigit = true) ∨
      (∃ d lx2, lx = '-' :: d :: lx2 ∧ d.isDigit = true)) ∧
    (∀ c ∈ lx, c ≠ '\n') ∧
    ∀ r2, (r2 = [] ∨ ∃ c t t2, r = c :: t ∧ r2 = c :: t2) →
      lexNum (lx ++ r2) = some (lx, r2) := by
  by_cases hh : s.head? = some '-'
  case pos =>
    obtain ⟨rest, rfl⟩ : ∃ rest, s = '-' :: rest := by
      cases s with
      | nil => exact absurd hh (by simp)
      | cons c rest2 =>
        rw [List.head?_cons, Option.some.injEq] at hh
        exact ⟨rest2, by rw [hh]⟩
    have hcond : ('-' :: rest).head? = some '-' := rfl
    simp only [lexNum, hcond, if_pos, List.tail_cons] at h
    cases hli : lexInt rest with
    | none => simp only [hli] at h; exact Option.noConfusion h
    | some p =>
      obtain ⟨ip, r1⟩ := p
      simp only [hli] at h
      cases hlf : lexFrac r1 with
      | none => simp only [hlf] at h; exact Option.noConfusion h
      | some q =>
        obtain ⟨fp, r2x⟩ := q
        simp only [hlf] at h
        cases hle : lexExp r2x with
        | none => simp only [hle] at h; exact Option.noConfusion h
        | some w =>
          obtain ⟨ep, r3⟩ := w
          simp only [hle] at h
          simp only [Option.some.injEq, Prod.mk.injEq] at h
          obtain ⟨h1, h2⟩ := h
          subst h1; subst h2
          obtain ⟨hI1, hIne, hIdig, hIdisj, hIstab⟩ := lexInt_dec rest ip r1 hli
          obtain ⟨hF1, hFshape, hFnil, hFstab⟩ := lexFrac_dec r1 fp r2x hlf
          obtain ⟨hE1, hEshape, hEnil, hEstab⟩ := lexExp_dec r2x ep r3 hle
          refine ⟨by simp [hI1, hF1, hE1, List.append_assoc], by simp, ?_, ?_,
            ?_, ?_⟩
          · rcases hEshape with hep | ⟨e0, sgn, ds, hepeq, _, _, hdsne, hdsdig, _⟩
            · subst hep
              rcases hFshape with hfp | ⟨ds, hfpeq, hdsne, hdsdig, _⟩
              · subst hfp
                obtain ⟨l0, cl, hl, hcl⟩ :=
                  last_digit_append ['-'] ip hIdig hIne
                exact ⟨l0, cl, by simpa using hl, hcl⟩
              · subst hfpeq
                obtain ⟨l0, cl, hl, hcl⟩ :=
                  last_digit_append ('-' :: ip ++ ['.']) ds hdsdig hdsne
                exact ⟨l0, cl, by simpa [List.append_assoc] using hl, hcl⟩
            · subst hepeq
              obtain ⟨l0, cl, hl, hcl⟩ :=
                last_digit_append ('-' :: ip ++ fp ++ e0 :: sgn) ds hdsdig hdsne
              exact ⟨l0, cl, by simpa [List.append_assoc] using hl, hcl⟩
          · obtain ⟨i0, ip', hip⟩ : ∃ i0 ip', ip = i0 :: ip' := by
              cases ip with
              | nil => exact absurd rfl hIne
              | cons a b => exact ⟨a, b, rfl⟩
            exact Or.inr ⟨i0, ip' ++ fp ++ ep,
              by simp [hip, List.append_assoc], hIdig i0 (by simp [hip])⟩
          · intro c hc
            have hc2 : c = '-' ∨ c ∈ ip ∨ c ∈ fp ∨ c ∈ ep := by
              simp only [List.append_eq, List.cons_append, List.nil_append,
                List.mem_cons, List.mem_append] at hc
              tauto
            rcases hc2 with rfl | hc | hc | hc
            · decide
            · exact digit_ne_nl c (hIdig c hc)
            · rcases hFshape with hfp | ⟨ds, hfpeq, _, hdsdig, _⟩
              · subst hfp; simp at hc
              · subst hfpeq
                rcases List.mem_cons.mp hc with rfl | hc
                · decide
                · exact digit_ne_nl c (hdsdig c hc)
            · rcases hEshape with hep | ⟨e0, sgn, ds, hepeq, he0, hsgn, _, hdsdig, _⟩
              · subst hep; simp at hc
              · subst hepeq
                rcases List.mem_cons.mp hc with rfl | hc
                · rcases he0 with rfl | rfl <;> decide
                · rcases List.mem_append.mp hc with hc | hc
                  · rcases hsgn with rfl | rfl | rfl
                    · simp at hc
                    · rcases List.mem_singleton.mp hc with rfl; decide
                    · rcases List.mem_singleton.mp hc with rfl; decide
                  · exact digit_ne_nl c (hdsdig c hc)
          · intro r2 hr2
            have hIcond : ip = ['0'] ∨
                ∀ c t, (fp ++ (ep ++ r2)) = c :: t → c.isDigit = false := by
              rcases hFshape with hfp | ⟨ds, hfpeq, _, _, _⟩
              · subst hfp
                rcases hEshape with hep | ⟨e0, sgn, ds, hepeq, he0, _, _, _, _⟩
                · subst hep
                  rcases hIdisj with h0 | hnd
                  · exact Or.inl h0
                  · refine Or.inr ?_
                    intro c t hct
                    simp only [List.nil_append] at hct
                    rcases hr2 with rfl | ⟨c3, t3, t4, hct3, hct4⟩
                    · exact List.noConfusion hct
                    · rw [hct] at hct4
                      injection hct4 with ha hb
                      rw [ha]
                      apply hnd c3 t3
                      rw [hF1, hE1]
                      simpa using hct3
                · refine Or.inr ?_
                  intro c t hct
                  rw [hepeq] at hct
                  simp only [List.nil_append, List.cons_append] at hct
                  injection hct with ha hb
                  subst ha
                  rcases he0 with rfl | rfl <;> decide
              · refine Or.inr ?_
                intro c t hct
                rw [hfpeq] at hct
                simp only [List.cons_append] at hct
                injection hct with ha hb
                subst ha
                decide
            have hFcond : (ep ++ r2) = [] ∨
                ∃ c t t2, r2x = c :: t ∧ (ep ++ r2) = c :: t2 := by
              rcases hEshape with hep | ⟨e0, sgn, ds, hepeq, _, _, _, _, _⟩
              · subst hep
                rcases hr2 with rfl | ⟨c3, t3, t4, hct3, hct4⟩
                · exact Or.inl rfl
                · refine Or.inr ⟨c3, t3, t4, ?_, by simpa using hct4⟩
                  rw [hE1]; simpa using hct3
              · subst hepeq
                exact Or.inr ⟨e0, sgn ++ ds ++ r3, sgn ++ ds ++ r2,
                  by rw [hE1]; simp [List.append_assoc], by simp [List.append_assoc]⟩
            have hIs := hIstab (fp ++ (ep ++ r2)) hIcond
            have hFs := hFstab (ep ++ r2) hFcond
            have hEs := hEstab r2 hr2
            have hcons : ('-' :: (ip ++ fp ++ ep)) ++ r2 =
                '-' :: (ip ++ (fp ++ (ep ++ r2))) := by
              simp [List.append_assoc]
            have hcond2 : ('-' :: (ip ++ (fp ++ (ep ++ r2)))).head? = some '-' := rfl
            have hgoal : lexNum ('-' :: (ip ++ (fp ++ (ep ++ r2)))) =
                some ('-' :: (ip ++ fp ++ ep), r2) := by
              simp only [lexNum, hcond2, if_pos, List.tail_cons]
              simp only [hIs]
              simp only [hFs]
              simp only [hEs]
              simp [List.append_assoc]
            simpa [List.append_assoc] using hgoal
  case neg =>
    simp only [lexNum, if_neg hh] at h
    cases hli : lexInt s with
    | none => simp only [hli] at h; exact Option.noConfusion h
    | some p =>
      obtain ⟨ip, r1⟩ := p
      simp only [hli] at h
      cases hlf : lexFrac r1 with
      | none => simp only [hlf] at h; exact Option.noConfusion h
      | some q =>
        obtain ⟨fp, r2x⟩ := q
        simp only [hlf] at h
        cases hle : lexExp r2x with
        | none => simp only [hle] at h; exact Option.noConfusion h
        | some w =>
          obtain ⟨ep, r3⟩ := w
          simp only [hle] at h
          simp only [Option.some.injEq, Prod.mk.injEq, List.nil_append] at h
          obtain ⟨h1, h2⟩ := h
          subst h1; subst h2
          obtain ⟨hI1, hIne, hIdig, hIdisj, hIstab⟩ := lexInt_dec s ip r1 hli
          obtain ⟨hF1, hFshape, hFnil, hFstab⟩ := lexFrac_dec r1 fp r2x hlf
          obtain ⟨hE1, hEshape, hEnil, hEstab⟩ := lexExp_dec r2x ep r3 hle
          obtain ⟨i0, ip', hip⟩ : ∃ i0 ip', ip = i0 :: ip' := by
            cases ip with
            | nil => exact absurd rfl hIne
            | cons a b => exact ⟨a, b, rfl⟩
          have hi0d : i0.isDigit = true := hIdig i0 (by simp [hip])
          have hi0m : i0 ≠ '-' := by
            intro he; rw [he] at hi0d; exact absurd hi0d (by decide)
          refine ⟨by simp [hI1, hF1, hE1, List.append_assoc], by simp [hip], ?_,
            Or.inl ⟨i0, ip' ++ fp ++ ep, by simp [hip, List.append_assoc], hi0d⟩,
            ?_, ?_⟩
          · rcases hEshape with hep | ⟨e0, sgn, ds, hepeq, _, _, hdsne, hdsdig, _⟩
            · subst hep
              rcases hFshape with hfp | ⟨ds, hfpeq, hdsne, hdsdig, _⟩
              · subst hfp
                obtain ⟨l0, cl, hl, hcl⟩ := last_digit_append [] ip hIdig hIne
                exact ⟨l0, cl, by simpa using hl, hcl⟩
              · subst hfpeq
                obtain ⟨l0, cl, hl, hcl⟩ :=
                  last_digit_append (ip ++ ['.']) ds hdsdig hdsne
                exact ⟨l0, cl, by simpa [List.append_assoc] using hl, hcl⟩
            · subst hepeq
              obtain ⟨l0, cl, hl, hcl⟩ :=
                last_digit_append (ip ++ fp ++ e0 :: sgn) ds hdsdig hdsne
              exact ⟨l0, cl, by simpa [List.append_assoc] using hl, hcl⟩
          · intro c hc
            have hc2 : c ∈ ip ∨ c ∈ fp ∨ c ∈ ep := by
              simp only [List.mem_append] at hc
              tauto
            rcases hc2 with hc | hc | hc
            · exact digit_ne_nl c (hIdig c hc)
            · rcases hFshape with hfp | ⟨ds, hfpeq, _, hdsdig, _⟩
              · subst hfp; simp at hc
              · subst hfpeq
                rcases List.mem_cons.mp hc with rfl | hc
                · decide
                · exact digit_ne_nl c (hdsdig c hc)
            · rcases hEshape with hep | ⟨e0, sgn, ds, hepeq, he0, hsgn, _, hdsdig, _⟩
              · subst hep; simp at hc
              · subst hepeq
                rcases List.mem_cons.mp hc with rfl | hc
                · rcases he0 with rfl | rfl <;> decide
                · rcases List.mem_append.mp hc with hc | hc
                  · rcases hsgn with rfl | rfl | rfl
                    · simp at hc
                    · rcases List.mem_singleton.mp hc with rfl; decide
                    · rcases List.mem_singleton.mp hc with rfl; decide
                  · exact digit_ne_nl c (hdsdig c hc)
          · intro r2 hr2
            have hIcond : ip = ['0'] ∨
                ∀ c t, (fp ++ (ep ++ r2)) = c :: t → c.isDigit = false := by
              rcases hFshape with hfp | ⟨ds, hfpeq, _, _, _⟩
              · subst hfp
                rcases hEshape with hep | ⟨e0, sgn, ds, hepeq, he0, _, _, _, _⟩
                · subst hep
                  rcases hIdisj with h0 | hnd
                  · exact Or.inl h0
                  · refine Or.inr ?_
                    intro c t hct
                    simp only [List.nil_append] at hct
                    rcases hr2 with rfl | ⟨c3, t3, t4, hct3, hct4⟩
                    · exact List.noConfusion hct
                    · rw [hct] at hct4
                      injection hct4 with ha hb
                      rw [ha]
                      apply hnd c3 t3
                      rw [hF1, hE1]
                      simpa using hct3
                · refine Or.inr ?_
                  intro c t hct
                  rw [hepeq] at hct
                  simp only [List.nil_append, List.cons_append] at hct
                  injection hct with ha hb
                  subst ha
                  rcases he0 with rfl | rfl <;> decide
              · refine Or.inr ?_
                intro c t hct
                rw [hfpeq] at hct
                simp only [List.cons_append] at hct
                injection hct with ha hb
                subst ha
                decide
            have hFcond : (ep ++ r2) = [] ∨
                ∃ c t t2, r2x = c :: t ∧ (ep ++ r2) = c :: t2 := by
              rcases hEshape with hep | ⟨e0, sgn, ds, hepeq, _, _, _, _, _⟩
              · subst hep
                rcases hr2 with rfl | ⟨c3, t3, t4, hct3, hct4⟩
                · exact Or.inl rfl
                · refine Or.inr ⟨c3, t3, t4, ?_, by simpa using hct4⟩
                  rw [hE1]; simpa using hct3
              · subst hepeq
                exact Or.inr ⟨e0, sgn ++ ds ++ r3, sgn ++ ds ++ r2,
                  by rw [hE1]; simp [List.append_assoc], by simp [List.append_assoc]⟩
            have hIs := hIstab (fp ++ (ep ++ r2)) hIcond
            have hFs := hFstab (ep ++ r2) hFcond
            have hEs := hEstab r2 hr2
            have hcons : (ip ++ fp ++ ep) ++ r2 =
                i0 :: (ip' ++ (fp ++ (ep ++ r2))) := by
              rw [hip]; simp [List.append_assoc]
            have hcond2 : (i0 :: (ip' ++ (fp ++ (ep ++ r2)))).head? ≠ some '-' := by
              rw [List.head?_cons]
              intro he
              exact hi0m (Option.some.inj he)
            have hgoal : lexNum (i0 :: (ip' ++ (fp ++ (ep ++ r2)))) =
                some (ip ++ fp ++ ep, r2) := by
              simp only [lexNum, if_neg hcond2]
              have hIs2 : lexInt (i0 :: (ip' ++ (fp ++ (ep ++ r2)))) =
                  some (i0 :: ip', fp ++ (ep ++ r2)) := by
                have := hIs
                rw [hip] at this
                simpa [List.append_assoc] using this
              simp only [hIs2]
              simp only [hFs]
              simp only [hEs]
              simp [hip, List.append_assoc]
            simpa [hip, List.append_assoc] using hgoal

/-- A character with a hexadecimal value is not a newline. -/
theorem hexDigitVal_ne_nl (c : Char) (a : Nat) (h : hexDigitVal c = some a) :
    c ≠ '\n' := by
  intro he
  subst he
  rw [show hexDigitVal '\n' = none from by decide] at h
  exact Option.noConfusion h

/-- A character naming a simple string escape is not a newline. -/
theorem escChar_ne_nl (e ec : Char) (h : escChar e = some ec) : e ≠ '\n' := by
  intro he
  subst he
  rw [show escChar '\n' = none from by decide] at h
  exact Option.noConfusion h

/-- A digit is never Python whitespace. -/
theorem digit_not_pyWs (c : Char) (hc : c.isDigit = true) : pyWsChar c = false := by
  have e1 : (c == ' ') = false := beq_eq_false_iff_ne.mpr
    (fun he => by rw [he] at hc; exact Bool.noConfusion hc)
  have e2 : (c == '\t') = false := beq_eq_false_iff_ne.mpr
    (fun he => by rw [he] at hc; exact Bool.noConfusion hc)
  have e3 : (c == '\n') = false := beq_eq_false_iff_ne.mpr
    (fun he => by rw [he] at hc; exact Bool.noConfusion hc)
  have e4 : (c == '\r') = false := beq_eq_false_iff_ne.mpr
    (fun he => by rw [he] at hc; exact Bool.noConfusion hc)
  have e5 : (c == '\x0b') = false := beq_eq_false_iff_ne.mpr
    (fun he => by rw [he] at hc; exact Bool.noConfusion hc)
  have e6 : (c == '\x0c') = false := beq_eq_false_iff_ne.mpr
    (fun he => by rw [he] at hc; exact Bool.noConfusion hc)
  simp [pyWsChar, e1, e2, e3, e4, e5, e6]

/-- A digit compares unequal to any non-digit (left form). -/
theorem digit_beq_false (c x : Char) (hc : c.isDigit = true)
    (hx : x.isDigit = false) : (c == x) = false :=
  beq_eq_false_iff_ne.mpr
    (fun he => by rw [he, hx] at hc; exact Bool.noConfusion hc)

/-- A digit compares unequal to any non-digit (right form). -/
theorem digit_beq_false2 (c x : Char) (hc : c.isDigit = true)
    (hx : x.isDigit = false) : (x == c) = false :=
  beq_eq_false_iff_ne.mpr
    (fun he => by rw [← he, hx] at hc; exact Bool.noConfusion hc)

/-- JSON whitespace is Python whitespace. -/
theorem jsonWs_pyWs (c : Char) (h : jsonWsChar c = true) : pyWsChar c = true := by
  simp only [jsonWsChar, Bool.or_eq_true] at h
  simp only [pyWsChar, Bool.or_eq_true]
  tauto

/-- Decomposition and suffix-stability of a JSON string body: the input splits
as the raw body (through the closing quote) and the rest, the body contains no
newline, and re-scanning the body before any suffix yields the same decoded
characters with that suffix as leftover. -/
theorem lexStrChars_dec : ∀ n s cs r, s.length ≤ n →
    lexStrChars s = some (cs, r) →
    ∃ w, s = w ++ r ∧ (∀ c ∈ w, c ≠ '\n') ∧ (∃ w0, w = w0 ++ ['"']) ∧
      ∀ r2, lexStrChars (w ++ r2) = some (cs, r2) := by
  intro n
  induction n with
  | zero =>
    intro s cs r hlen h
    rw [List.length_eq_zero.mp (Nat.le_zero.mp hlen)] at h
    exact Option.noConfusion h
  | succ n ih =>
    intro s cs r hlen h
    cases s with
    | nil => exact Option.noConfusion h
    | cons c rest =>
      rw [List.length_cons, Nat.succ_le_succ_iff] at hlen
      by_cases hq : (c == '"') = true
      · have hcq : c = '"' := eq_of_beq hq
        subst hcq
        rw [lexStrChars.eq_def] at h
        simp only [show ('"' == '"') = true from rfl, if_true] at h
        simp only [Option.some.injEq, Prod.mk.injEq] at h
        obtain ⟨h1, h2⟩ := h
        subst h1; subst h2
        refine ⟨['"'], rfl, by decide, ⟨[], rfl⟩, fun r2 => ?_⟩
        rw [List.singleton_append, lexStrChars.eq_def]
        simp only [show ('"' == '"') = true from rfl, if_true]
      · rw [Bool.not_eq_true] at hq
        by_cases hb : (c == '\\') = true
        · have hcb : c = '\\' := eq_of_beq hb
          subst hcb
          cases rest with
          | nil =>
            rw [lexStrChars.eq_def] at h
            simp only [show ('\\' == '"') = false from rfl,
              show ('\\' == '\\') = true from rfl,
              Bool.false_eq_true, if_false, if_true] at h
            exact Option.noConfusion h
          | cons e rest2 =>
            rw [List.length_cons] at hlen
            by_cases hu : (e == 'u') = true
            · have heu : e = 'u' := eq_of_beq hu
              subst heu
              rw [lexStrChars.eq_def] at h
              simp only [show ('\\' == '"') = false from rfl,
                show ('\\' == '\\') = true from rfl,
                show ('u' == 'u') = true from rfl,
                Bool.false_eq_true, if_false, if_true] at h
              rcases rest2 with _ | ⟨x1, _ | ⟨x2, _ | ⟨x3, _ | ⟨x4, rest3⟩⟩⟩⟩
              · exact Option.noConfusion h
              · exact Option.noConfusion h
              · exact Option.noConfusion h
              · exact Option.noConfusion h
              · cases hx1 : hexDigitVal x1 with
                | none => simp only [hx1] at h; exact Option.noConfusion h
                | some a =>
                cases hx2 : hexDigitVal x2 with
                | none => simp only [hx1, hx2] at h; exact Option.noConfusion h
                | some b =>
                cases hx3 : hexDigitVal x3 with
                | none => simp only [hx1, hx2, hx3] at h; exact Option.noConfusion h
                | some c0 =>
                cases hx4 : hexDigitVal x4 with
                | none => simp only [hx1, hx2, hx3, hx4] at h; exact Option.noConfusion h
                | some d0 =>
                simp only [hx1, hx2, hx3, hx4] at h
                cases hsc : lexStrChars rest3 with
                | none => simp only [hsc] at h; exact Option.noConfusion h
                | some p =>
                  obtain ⟨cs4, r4⟩ := p
                  simp only [hsc, Option.some.injEq, Prod.mk.injEq] at h
                  obtain ⟨h1, h2⟩ := h
                  subst h1; subst h2
                  have hlen3 : rest3.length ≤ n := by
                    simp only [List.length_cons] at hlen
                    omega
                  obtain ⟨w3, hw1, hw2, ⟨wq, hwq⟩, hwstab⟩ :=
                    ih rest3 cs4 r4 hlen3 hsc
                  refine ⟨'\\' :: 'u' :: x1 :: x2 :: x3 :: x4 :: w3,
                    by simp [hw1], ?_,
                    ⟨'\\' :: 'u' :: x1 :: x2 :: x3 :: x4 :: wq,
                      by simp [hwq]⟩, ?_⟩
                  · intro ch hch
                    simp only [List.mem_cons] at hch
                    rcases hch with rfl | rfl | h1 | h1 | h1 | h1 | hch
                    · decide
                    · decide
                    · rw [h1]; exact hexDigitVal_ne_nl x1 a hx1
                    · rw [h1]; exact hexDigitVal_ne_nl x2 b hx2
                    · rw [h1]; exact hexDigitVal_ne_nl x3 c0 hx3
                    · rw [h1]; exact hexDigitVal_ne_nl x4 d0 hx4
                    · exact hw2 ch hch
                  · intro r2
                    have hs3 := hwstab r2
                    simp only [List.cons_append]
                    rw [lexStrChars.eq_def]
                    simp only [show ('\\' == '"') = false from rfl,
                      show ('\\' == '\\') = true from rfl,
                      show ('u' == 'u') = true from rfl,
                      Bool.false_eq_true, if_false, if_true, List.append_eq,
                      hx1, hx2, hx3, hx4, hs3]
            · rw [Bool.not_eq_true] at hu
              rw [lexStrChars.eq_def] at h
              simp only [show ('\\' == '"') = false from rfl,
                show ('\\' == '\\') = true from rfl, hu,
                Bool.false_eq_true, if_false, if_true] at h
              cases hec : escChar e with
              | none => simp only [hec] at h; exact Option.noConfusion h
              | some ec =>
                simp only [hec] at h
                cases hsc : lexStrChars rest2 with
                | none => simp only [hsc] at h; exact Option.noConfusion h
                | some p =>
                  obtain ⟨cs4, r4⟩ := p
                  simp only [hsc, Option.some.injEq, Prod.mk.injEq] at h
                  obtain ⟨h1, h2⟩ := h
                  subst h1; subst h2
                  have hlen2 : rest2.length ≤ n := by omega
                  obtain ⟨w2, hw1, hw2, ⟨wq, hwq⟩, hwstab⟩ :=
                    ih rest2 cs4 r4 hlen2 hsc
                  refine ⟨'\\' :: e :: w2, by simp [hw1], ?_,
                    ⟨'\\' :: e :: wq, by simp [hwq]⟩, ?_⟩
                  · intro ch hch
                    simp only [List.mem_cons] at hch
                    rcases hch with rfl | h1 | hch
                    · decide
                    · rw [h1]; exact escChar_ne_nl e ec hec
                    · exact hw2 ch hch
                  · intro r2
                    have hs2 := hwstab r2
                    simp only [List.cons_append]
                    rw [lexStrChars.eq_def]
                    simp only [show ('\\' == '"') = false from rfl,
                      show ('\\' == '\\') = true from rfl, hu, hec,
                      Bool.false_eq_true, if_false, if_true, List.append_eq,
                      hs2]
        · rw [Bool.not_eq_true] at hb
          rw [lexStrChars.eq_def] at h
          simp only [hq, hb, Bool.false_eq_true, if_false] at h
          by_cases hlt : c.toNat < 32
          · rw [if_pos hlt] at h
            exact Option.noConfusion h
          · rw [if_neg hlt] at h
            cases hsc : lexStrChars rest with
            | none => simp only [hsc] at h; exact Option.noConfusion h
            | some p =>
              obtain ⟨cs4, r4⟩ := p
              simp only [hsc, Option.some.injEq, Prod.mk.injEq] at h
              obtain ⟨h1, h2⟩ := h
              subst h1; subst h2
              obtain ⟨w1, hw1, hw2, ⟨wq, hwq⟩, hwstab⟩ := ih rest cs4 r4 hlen hsc
              refine ⟨c :: w1, by simp [hw1], ?_,
                ⟨c :: wq, by simp [hwq]⟩, ?_⟩
              · intro ch hch
                simp only [List.mem_cons] at hch
                rcases hch with h1 | hch
                · rw [h1]
                  intro he
                  rw [he] at hlt
                  exact hlt (by decide)
                · exact hw2 ch hch
              · intro r2
                have hs1 := hwstab r2
                simp only [List.cons_append]
                rw [lexStrChars.eq_def]
                simp only [hq, hb, Bool.false_eq_true, if_false, if_neg hlt,
                  List.append_eq, hs1]

/-- On an input whose head is a digit, the lexer reads exactly the number
found by the number sublexer. -/
theorem lexTok_num_digit (d : Char) (X : Str) (hd : d.isDigit = true)
    (lx r : Str) (hn : lexNum (d :: X) = some (lx, r)) :
    lexTok (d :: X) = some (.numT lx, r) := by
  have k1 : startsW (strL "true") (d :: X) = false := by
    simp only [show strL "true" = 't' :: strL "rue" from rfl, startsW,
      digit_beq_false2 d 't' hd (by decide), Bool.false_and]
  have k2 : startsW (strL "false") (d :: X) = false := by
    simp only [show strL "false" = 'f' :: strL "alse" from rfl, startsW,
      digit_beq_false2 d 'f' hd (by decide), Bool.false_and]
  have k3 : startsW (strL "null") (d :: X) = false := by
    simp only [show strL "null" = 'n' :: strL "ull" from rfl, startsW,
      digit_beq_false2 d 'n' hd (by decide), Bool.false_and]
  have k4 : startsW (strL "NaN") (d :: X) = false := by
    simp only [show strL "NaN" = 'N' :: strL "aN" from rfl, startsW,
      digit_beq_false2 d 'N' hd (by decide), Bool.false_and]
  have k5 : startsW (strL "Infinity") (d :: X) = false := by
    simp only [show strL "Infinity" = 'I' :: strL "nfinity" from rfl, startsW,
      digit_beq_false2 d 'I' hd (by decide), Bool.false_and]
  have k6 : startsW (strL "-Infinity") (d :: X) = false := by
    simp only [show strL "-Infinity" = '-' :: strL "Infinity" from rfl, startsW,
      digit_beq_false2 d '-' hd (by decide), Bool.false_and]
  simp only [lexTok, digit_beq_false d '{' hd (by decide),
    digit_beq_false d '}' hd (by decide), digit_beq_false d '[' hd (by decide),
    digit_beq_false d ']' hd (by decide), digit_beq_false d ':' hd (by decide),
    digit_beq_false d ',' hd (by decide), digit_beq_false d '"' hd (by decide),
    k1, k2, k3, k4, k5, k6, Bool.false_eq_true, if_false, hn]

/-- On an input starting with a minus sign followed by a digit, the lexer
reads exactly the number found by the number sublexer. -/
theorem lexTok_num_minus (d : Char) (X : Str) (hd : d.isDigit = true)
    (lx r : Str) (hn : lexNum ('-' :: d :: X) = some (lx, r)) :
    lexTok ('-' :: d :: X) = some (.numT lx, r) := by
  have k1 : startsW (strL "true") ('-' :: d :: X) = false := by
    simp only [show strL "true" = 't' :: strL "rue" from rfl, startsW,
      show ('t' == '-') = false from rfl, Bool.false_and]
  have k2 : startsW (strL "false") ('-' :: d :: X) = false := by
    simp only [show strL "false" = 'f' :: strL "alse" from rfl, startsW,
      show ('f' == '-') = false from rfl, Bool.false_and]
  have k3 : startsW (strL "null") ('-' :: d :: X) = false := by
    simp only [show strL "null" = 'n' :: strL "ull" from rfl, startsW,
      show ('n' == '-') = false from rfl, Bool.false_and]
  have k4 : startsW (strL "NaN") ('-' :: d :: X) = false := by
    simp only [show strL "NaN" = 'N' :: strL "aN" from rfl, startsW,
      show ('N' == '-') = false from rfl, Bool.false_and]
  have k5 : startsW (strL "Infinity") ('-' :: d :: X) = false := by
    simp only [show strL "Infinity" = 'I' :: strL "nfinity" from rfl, startsW,
      show ('I' == '-') = false from rfl, Bool.false_and]
  have k6 : startsW (strL "-Infinity") ('-' :: d :: X) = false := by
    simp only [show strL "-Infinity" = '-' :: 'I' :: strL "nfinity" from rfl,
      startsW, show ('-' == '-') = true from rfl, Bool.true_and,
      digit_beq_false2 d 'I' hd (by decide), Bool.false_and]
  simp only [lexTok, show ('-' == '{') = false from rfl,
    show ('-' == '}') = false from rfl, show ('-' == '[') = false from rfl,
    show ('-' == ']') = false from rfl, show ('-' == ':') = false from rfl,
    show ('-' == ',') = false from rfl, show ('-' == '"') = false from rfl,
    k1, k2, k3, k4, k5, k6, Bool.false_eq_true, if_false, hn]

/-- The first character of a lexed token is never Python whitespace and never
a backtick. -/
theorem lexTok_head_props (c : Char) (rest : Str) (p : JTok × Str)
    (h : lexTok (c :: rest) = some p) : pyWsChar c = false ∧ c ≠ '`' := by
  by_cases h1 : (c == '{') = true
  · rw [eq_of_beq h1]; exact ⟨rfl, by decide⟩
  by_cases h2 : (c == '}') = true
  · rw [eq_of_beq h2]; exact ⟨rfl, by decide⟩
  by_cases h3 : (c == '[') = true
  · rw [eq_of_beq h3]; exact ⟨rfl, by decide⟩
  by_cases h4 : (c == ']') = true
  · rw [eq_of_beq h4]; exact ⟨rfl, by decide⟩
  by_cases h5 : (c == ':') = true
  · rw [eq_of_beq h5]; exact ⟨rfl, by decide⟩
  by_cases h6 : (c == ',') = true
  · rw [eq_of_beq h6]; exact ⟨rfl, by decide⟩
  by_cases h7 : (c == '"') = true
  · rw [eq_of_beq h7]; exact ⟨rfl, by decide⟩
  by_cases hk1 : startsW (strL "true") (c :: rest) = true
  · obtain ⟨z, hz⟩ := (startsW_iff_exists _ _).mp hk1
    rw [show strL "true" ++ z = 't' :: (strL "rue" ++ z) from rfl] at hz
    injection hz with hc _
    rw [hc]; exact ⟨rfl, by decide⟩
  by_cases hk2 : startsW (strL "false") (c :: rest) = true
  · obtain ⟨z, hz⟩ := (startsW_iff_exists _ _).mp hk2
    rw [show strL "false" ++ z = 'f' :: (strL "alse" ++ z) from rfl] at hz
    injection hz with hc _
    rw [hc]; exact ⟨rfl, by decide⟩
  by_cases hk3 : startsW (strL "null") (c :: rest) = true
  · obtain ⟨z, hz⟩ := (startsW_iff_exists _ _).mp hk3
    rw [show strL "null" ++ z = 'n' :: (strL "ull" ++ z) from rfl] at hz
    injection hz with hc _
    rw [hc]; exact ⟨rfl, by decide⟩
  by_cases hk4 : startsW (strL "NaN") (c :: rest) = true
  · obtain ⟨z, hz⟩ := (startsW_iff_exists _ _).mp hk4
    rw [show strL "NaN" ++ z = 'N' :: (strL "aN" ++ z) from rfl] at hz
    injection hz with hc _
    rw [hc]; exact ⟨rfl, by decide⟩
  by_cases hk5 : startsW (strL "Infinity") (c :: rest) = true
  · obtain ⟨z, hz⟩ := (startsW_iff_exists _ _).mp hk5
    rw [show strL "Infinity" ++ z = 'I' :: (strL "nfinity" ++ z) from rfl] at hz
    injection hz with hc _
    rw [hc]; exact ⟨rfl, by decide⟩
  by_cases hk6 : startsW (strL "-Infinity") (c :: rest) = true
  · obtain ⟨z, hz⟩ := (startsW_iff_exists _ _).mp hk6
    rw [show strL "-Infinity" ++ z = '-' :: (strL "Infinity" ++ z) from rfl] at hz
    injection hz with hc _
    rw [hc]; exact ⟨rfl, by decide⟩
  rw [Bool.not_eq_true] at h1 h2 h3 h4 h5 h6 h7 hk1 hk2 hk3 hk4 hk5 hk6
  simp only [lexTok, h1, h2, h3, h4, h5, h6, h7, hk1, hk2, hk3, hk4, hk5, hk6,
    Bool.false_eq_true, if_false] at h
  cases hn : lexNum (c :: rest) with
  | none => simp only [hn] at h; exact Option.noConfusion h
  | some q =>
    by_cases hm : (c :: rest).head? = some '-'
    · have hcm : c = '-' := by
        rw [List.head?_cons] at hm
        exact Option.some.inj hm
      rw [hcm]; exact ⟨rfl, by decide⟩
    · simp only [lexNum, if_neg hm] at hn
      cases hi : lexInt (c :: rest) with
      | none => simp only [hi] at hn; exact Option.noConfusion hn
      | some q2 =>
        obtain ⟨q1, q3⟩ := q2
        obtain ⟨hd1, hdne, hddig, _, _⟩ := lexInt_dec _ _ _ hi
        have hcdig : c.isDigit = true := by
          cases q1 with
          | nil => exact absurd rfl hdne
          | cons a t =>
            rw [List.cons_append] at hd1
            injection hd1 with ha _
            rw [ha]
            exact hddig a (by simp)
        refine ⟨digit_not_pyWs c hcdig, fun he => ?_⟩
        rw [he] at hcdig
        exact Bool.noConfusion hcdig

/-- Decomposition and suffix-stability of one lexed token: the input splits as
a nonempty lexeme and the rest, the lexeme contains no newline and ends in a
non-whitespace character, and re-lexing the lexeme before any rest with the
same head character (or before nothing) yields the same token. -/
theorem lexTok_dec (s : Str) (tk : JTok) (r : Str) (h : lexTok s = some (tk, r)) :
    ∃ v, s = v ++ r ∧ v ≠ [] ∧ (∀ c ∈ v, c ≠ '\n') ∧
      (∃ v0 cv, v = v0 ++ [cv] ∧ pyWsChar cv = false) ∧
      ∀ r2, (r2 = [] ∨ ∃ c2 t t2, r = c2 :: t ∧ r2 = c2 :: t2) →
        lexTok (v ++ r2) = some (tk, r2) := by
  cases s with
  | nil => exact Option.noConfusion h
  | cons c rest =>
    by_cases h1 : (c == '{') = true
    · rw [eq_of_beq h1] at h
      rw [show lexTok ('{' :: rest) = some (.lbrace, rest) from rfl] at h
      simp only [Option.some.injEq, Prod.mk.injEq] at h
      obtain ⟨ht, hr⟩ := h
      subst ht; subst hr
      exact ⟨['{'], by rw [eq_of_beq h1]; rfl, by simp, by decide,
        ⟨[], '{', rfl, by decide⟩, fun r2 _ => rfl⟩
    by_cases h2 : (c == '}') = true
    · rw [eq_of_beq h2] at h
      rw [show lexTok ('}' :: rest) = some (.rbrace, rest) from rfl] at h
      simp only [Option.some.injEq, Prod.mk.injEq] at h
      obtain ⟨ht, hr⟩ := h
      subst ht; subst hr
      exact ⟨['}'], by rw [eq_of_beq h2]; rfl, by simp, by decide,
        ⟨[], '}', rfl, by decide⟩, fun r2 _ => rfl⟩
    by_cases h3 : (c == '[') = true
    · rw [eq_of_beq h3] at h
      rw [show lexTok ('[' :: rest) = some (.lbrack, rest) from rfl] at h
      simp only [Option.some.injEq, Prod.mk.injEq] at h
      obtain ⟨ht, hr⟩ := h
      subst ht; subst hr
      exact ⟨['['], by rw [eq_of_beq h3]; rfl, by simp, by decide,
        ⟨[], '[', rfl, by decide⟩, fun r2 _ => rfl⟩
    by_cases h4 : (c == ']') = true
    · rw [eq_of_beq h4] at h
      rw [show lexTok (']' :: rest) = some (.rbrack, rest) from rfl] at h
      simp only [Option.some.injEq, Prod.mk.injEq] at h
      obtain ⟨ht, hr⟩ := h
      subst ht; subst hr
      exact ⟨[']'], by rw [eq_of_beq h4]; rfl, by simp, by decide,
        ⟨[], ']', rfl, by decide⟩, fun r2 _ => rfl⟩
    by_cases h5 : (c == ':') = true
    · rw [eq_of_beq h5] at h
      rw [show lexTok (':' :: rest) = some (.colon, rest) from rfl] at h
      simp only [Option.some.injEq, Prod.mk.injEq] at h
      obtain ⟨ht, hr⟩ := h
      subst ht; subst hr
      exact ⟨[':'], by rw [eq_of_beq h5]; rfl, by simp, by decide,
        ⟨[], ':', rfl, by decide⟩, fun r2 _ => rfl⟩
    by_cases h6 : (c == ',') = true
    · rw [eq_of_beq h6] at h
      rw [show lexTok (',' :: rest) = some (.comma, rest) from rfl] at h
      simp only [Option.some.injEq, Prod.mk.injEq] at h
      obtain ⟨ht, hr⟩ := h
      subst ht; subst hr
      exact ⟨[','], by rw [eq_of_beq h6]; rfl, by simp, by decide,
        ⟨[], ',', rfl, by decide⟩, fun r2 _ => rfl⟩
    by_cases h7 : (c == '"') = true
    · have hcq : c = '"' := eq_of_beq h7
      subst hcq
      simp only [lexTok, show ('"' == '{') = false from rfl,
        show ('"' == '}') = false from rfl, show ('"' == '[') = false from rfl,
        show ('"' == ']') = false from rfl, show ('"' == ':') = false from rfl,
        show ('"' == ',') = false from rfl, show ('"' == '"') = true from rfl,
        Bool.false_eq_true, if_false, if_true] at h
      cases hsc : lexStrChars rest with
      | none => simp only [hsc] at h; exact Option.noConfusion h
      | some q =>
        obtain ⟨cs, r1⟩ := q
        simp only [hsc, Option.some.injEq, Prod.mk.injEq] at h
        obtain ⟨ht, hr⟩ := h
        subst ht; subst hr
        obtain ⟨w, hw1, hw2, ⟨wq, hwq⟩, hwstab⟩ :=
          lexStrChars_dec rest.length rest cs r1 le_rfl hsc
        refine ⟨'"' :: w, by simp [hw1], by simp, ?_,
          ⟨'"' :: wq, '"', by simp [hwq], by decide⟩, ?_⟩
        · intro ch hch
          rcases List.mem_cons.mp hch with h0 | hch
          · rw [h0]; decide
          · exact hw2 ch hch
        · intro r2 _
          have hs := hwstab r2
          simp only [List.cons_append, lexTok,
            show ('"' == '{') = false from rfl,
            show ('"' == '}') = false from rfl,
            show ('"' == '[') = false from rfl,
            show ('"' == ']') = false from rfl,
            show ('"' == ':') = false from rfl,
            show ('"' == ',') = false from rfl,
            show ('"' == '"') = true from rfl,
            Bool.false_eq_true, if_false, if_true, hs]
    by_cases hk1 : startsW (strL "true") (c :: rest) = true
    · obtain ⟨z, hz⟩ := (startsW_iff_exists _ _).mp hk1
      rw [show strL "true" ++ z = 't' :: 'r' :: 'u' :: 'e' :: z from rfl] at hz
      injection hz with hc hrest
      subst hc; subst hrest
      rw [show lexTok ('t' :: 'r' :: 'u' :: 'e' :: z) = some (.trueT, z)
        from rfl] at h
      simp only [Option.some.injEq, Prod.mk.injEq] at h
      obtain ⟨ht, hr⟩ := h
      subst ht; subst hr
      exact ⟨['t', 'r', 'u', 'e'], rfl, by simp, by decide,
        ⟨['t', 'r', 'u'], 'e', rfl, by decide⟩, fun r2 _ => rfl⟩
    by_cases hk2 : startsW (strL "false") (c :: rest) = true
    · obtain ⟨z, hz⟩ := (startsW_iff_exists _ _).mp hk2
      rw [show strL "false" ++ z = 'f' :: 'a' :: 'l' :: 's' :: 'e' :: z
        from rfl] at hz
      injection hz with hc hrest
      subst hc; subst hrest
      rw [show lexTok ('f' :: 'a' :: 'l' :: 's' :: 'e' :: z) = some (.falseT, z)
        from rfl] at h
      simp only [Option.some.injEq, Prod.mk.injEq] at h
      obtain ⟨ht, hr⟩ := h
      subst ht; subst hr
      exact ⟨['f', 'a', 'l', 's', 'e'], rfl, by simp, by decide,
        ⟨['f', 'a', 'l', 's'], 'e', rfl, by decide⟩, fun r2 _ => rfl⟩
    by_cases hk3 : startsW (strL "null") (c :: rest) = true
    · obtain ⟨z, hz⟩ := (startsW_iff_exists _ _).mp hk3
      rw [show strL "null" ++ z = 'n' :: 'u' :: 'l' :: 'l' :: z from rfl] at hz
      injection hz with hc hrest
      subst hc; subst hrest
      rw [show lexTok ('n' :: 'u' :: 'l' :: 'l' :: z) = some (.nullT, z)
        from rfl] at h
      simp only [Option.some.injEq, Prod.mk.injEq] at h
      obtain ⟨ht, hr⟩ := h
      subst ht; subst hr
      exact ⟨['n', 'u', 'l', 'l'], rfl, by simp, by decide,
        ⟨['n', 'u', 'l'], 'l', rfl, by decide⟩, fun r2 _ => rfl⟩
    by_cases hk4 : startsW (strL "NaN") (c :: rest) = true
    · obtain ⟨z, hz⟩ := (startsW_iff_exists _ _).mp hk4
      rw [show strL "NaN" ++ z = 'N' :: 'a' :: 'N' :: z from rfl] at hz
      injection hz with hc hrest
      subst hc; subst hrest
      rw [show lexTok ('N' :: 'a' :: 'N' :: z) = some (.nanT, z) from rfl] at h
      simp only [Option.some.injEq, Prod.mk.injEq] at h
      obtain ⟨ht, hr⟩ := h
      subst ht; subst hr
      exact ⟨['N', 'a', 'N'], rfl, by simp, by decide,
        ⟨['N', 'a'], 'N', rfl, by decide⟩, fun r2 _ => rfl⟩
    by_cases hk5 : startsW (strL "Infinity") (c :: rest) = true
    · obtain ⟨z, hz⟩ := (startsW_iff_exists _ _).mp hk5
      rw [show strL "Infinity" ++ z =
        'I' :: 'n' :: 'f' :: 'i' :: 'n' :: 'i' :: 't' :: 'y' :: z from rfl] at hz
      injection hz with hc hrest
      subst hc; subst hrest
      rw [show lexTok ('I' :: 'n' :: 'f' :: 'i' :: 'n' :: 'i' :: 't' :: 'y' :: z)
        = some (.infT, z) from rfl] at h
      simp only [Option.some.injEq, Prod.mk.injEq] at h
      obtain ⟨ht, hr⟩ := h
      subst ht; subst hr
      exact ⟨['I', 'n', 'f', 'i', 'n', 'i', 't', 'y'], rfl, by simp, by decide,
        ⟨['I', 'n', 'f', 'i', 'n', 'i', 't'], 'y', rfl, by decide⟩,
        fun r2 _ => rfl⟩
    by_cases hk6 : startsW (strL "-Infinity") (c :: rest) = true
    · obtain ⟨z, hz⟩ := (startsW_iff_exists _ _).mp hk6
      rw [show strL "-Infinity" ++ z =
        '-' :: 'I' :: 'n' :: 'f' :: 'i' :: 'n' :: 'i' :: 't' :: 'y' :: z
        from rfl] at hz
      injection hz with hc hrest
      subst hc; subst hrest
      rw [show lexTok
        ('-' :: 'I' :: 'n' :: 'f' :: 'i' :: 'n' :: 'i' :: 't' :: 'y' :: z)
        = some (.negInfT, z) from rfl] at h
      simp only [Option.some.injEq, Prod.mk.injEq] at h
      obtain ⟨ht, hr⟩ := h
      subst ht; subst hr
      exact ⟨['-', 'I', 'n', 'f', 'i', 'n', 'i', 't', 'y'], rfl, by simp,
        by decide, ⟨['-', 'I', 'n', 'f', 'i', 'n', 'i', 't'], 'y', rfl,
          by decide⟩, fun r2 _ => rfl⟩
    rw [Bool.not_eq_true] at h1 h2 h3 h4 h5 h6 h7 hk1 hk2 hk3 hk4 hk5 hk6
    simp only [lexTok, h1, h2, h3, h4, h5, h6, h7, hk1, hk2, hk3, hk4, hk5, hk6,
      Bool.false_eq_true, if_false] at h
    cases hn : lexNum (c :: rest) with
    | none => simp only [hn] at h; exact Option.noConfusion h
    | some q =>
      obtain ⟨lx, rr⟩ := q
      simp only [hn, Option.some.injEq, Prod.mk.injEq] at h
      obtain ⟨ht, hr⟩ := h
      subst ht; subst hr
      obtain ⟨hn1, hn2, hn3, hn4, hn5, hn6⟩ := lexNum_dec _ _ _ hn
      refine ⟨lx, hn1, hn2, hn5, ?_, ?_⟩
      · obtain ⟨l0, cl, hl, hcl⟩ := hn3
        exact ⟨l0, cl, hl, digit_not_pyWs cl hcl⟩
      · intro r2 hr2
        have hs := hn6 r2 hr2
        rcases hn4 with ⟨d, lx2, hlx, hd⟩ | ⟨d, lx2, hlx, hd⟩
        · rw [hlx] at hs ⊢
          simp only [List.cons_append] at hs ⊢
          exact lexTok_num_digit d (lx2 ++ r2) hd _ _ hs
        · rw [hlx] at hs ⊢
          simp only [List.cons_append] at hs ⊢
          exact lexTok_num_minus d (lx2 ++ r2) hd _ _ hs

/-- `stripRight` over an append: if the right part strips to nothing the left
part is stripped, otherwise the left part survives whole. -/
theorem stripRight_append (v w : Str) :
    stripRight (v ++ w) =
      if stripRight w = [] then stripRight v else v ++ stripRight w := by
  induction v with
  | nil =>
    simp only [List.nil_append]
    by_cases hw : stripRight w = []
    · rw [if_pos hw, hw]; rfl
    · rw [if_neg hw]
  | cons c v ih =>
    by_cases hw : stripRight w = []
    · rw [if_pos hw]
      rw [if_pos hw] at ih
      simp only [List.cons_append, stripRight, List.append_eq, ih]
    · rw [if_neg hw]
      rw [if_neg hw] at ih
      simp only [List.cons_append, stripRight, List.append_eq, ih]
      cases hvw : v ++ stripRight w with
      | nil => exact absurd (List.append_eq_nil.mp hvw).2 hw
      | cons a t => simp [hvw]

/-- The head character survives `stripRight` whenever anything survives. -/
theorem stripRight_head (s : Str) (hne : stripRight s ≠ []) :
    ∃ c t t2, s = c :: t ∧ stripRight s = c :: t2 := by
  cases s with
  | nil => exact absurd rfl hne
  | cons c t =>
    cases hr : stripRight t with
    | nil =>
      by_cases hc : pyWsChar c = true
      · exact absurd (by simp [stripRight, hr, hc]) hne
      · rw [Bool.not_eq_true] at hc
        exact ⟨c, t, [], rfl, by simp [stripRight, hr, hc]⟩
    | cons a t2 =>
      exact ⟨c, t, a :: t2, rfl, by simp [stripRight, hr]⟩

/-- A token's leftover is strictly shorter than its input. -/
theorem lexTok_shrink (s : Str) (tk : JTok) (r : Str)
    (h : lexTok s = some (tk, r)) : r.length < s.length := by
  obtain ⟨v, hv1, hv2, _, _, _⟩ := lexTok_dec s tk r h
  rw [hv1, List.length_append]
  have hp : 0 < v.length := List.length_pos.mpr hv2
  omega

/-- One tokenizer step over a whitespace character. -/
theorem lexJson_step_ws (g : Nat) (c : Char) (rest : Str)
    (hc : jsonWsChar c = true) :
    lexJson (g + 1) (c :: rest) = lexJson g rest := by
  simp only [lexJson, if_pos hc]

/-- One tokenizer step when the token lexer fails. -/
theorem lexJson_step_tokfail (g : Nat) (c : Char) (rest : Str)
    (hc : jsonWsChar c = false) (htk : lexTok (c :: rest) = none) :
    lexJson (g + 1) (c :: rest) = none := by
  simp only [lexJson, hc, Bool.false_eq_true, if_false, htk]

/-- One tokenizer step over a token whose continuation fails. -/
theorem lexJson_step_tok_none (g : Nat) (c : Char) (rest : Str)
    (hc : jsonWsChar c = false) (tk : JTok) (rest2 : Str)
    (htk : lexTok (c :: rest) = some (tk, rest2))
    (hrec : lexJson g rest2 = none) :
    lexJson (g + 1) (c :: rest) = none := by
  simp only [lexJson, hc, Bool.false_eq_true, if_false, htk, hrec]

/-- One tokenizer step over a token whose continuation succeeds. -/
theorem lexJson_step_tok (g : Nat) (c : Char) (rest : Str)
    (hc : jsonWsChar c = false) (tk : JTok) (rest2 : Str)
    (htk : lexTok (c :: rest) = some (tk, rest2)) (ts : List JTok)
    (hrec : lexJson g rest2 = some ts) :
    lexJson (g + 1) (c :: rest) = some (tk :: ts) := by
  simp only [lexJson, hc, Bool.false_eq_true, if_false, htk, hrec]

/-- Fuel monotonicity of the tokenizer. -/
theorem lexJson_mono : ∀ f s toks, lexJson f s = some toks →
    ∀ g, f ≤ g → lexJson g s = some toks := by
  intro f
  induction f with
  | zero => intro s toks h; exact Option.noConfusion h
  | succ f ih =>
    intro s toks h g hg
    obtain ⟨g1, rfl⟩ : ∃ g1, g = g1 + 1 := by
      cases g with
      | zero => omega
      | succ g1 => exact ⟨g1, rfl⟩
    have hfg : f ≤ g1 := by omega
    cases s with
    | nil => exact h
    | cons c rest =>
      by_cases hc : jsonWsChar c = true
      · simp only [lexJson, if_pos hc] at h ⊢
        exact ih rest toks h g1 hfg
      · rw [Bool.not_eq_true] at hc
        simp only [lexJson, hc, Bool.false_eq_true, if_false] at h ⊢
        cases htk : lexTok (c :: rest) with
        | none => simp only [htk] at h; exact Option.noConfusion h
        | some p =>
          obtain ⟨tk, rest2⟩ := p
          simp only [htk] at h ⊢
          cases hrec : lexJson f rest2 with
          | none => simp only [hrec] at h; exact Option.noConfusion h
          | some ts =>
            simp only [hrec] at h
            simp only [ih rest2 ts hrec g1 hfg]
            exact h

/-- Tokenization at any sufficient fuel equals tokenization at the canonical
fuel of length plus one. -/
theorem lexJson_fuel : ∀ f s, s.length < f →
    lexJson f s = lexJson (s.length + 1) s := by
  intro f
  induction f using Nat.strong_induction_on with
  | _ f ih =>
    intro s hlen
    obtain ⟨f1, rfl⟩ : ∃ f1, f = f1 + 1 := by
      cases f with
      | zero => omega
      | succ f1 => exact ⟨f1, rfl⟩
    cases s with
    | nil => rfl
    | cons c rest =>
      rw [List.length_cons] at hlen
      rw [show (c :: rest).length = rest.length + 1 from List.length_cons c rest]
      by_cases hc : jsonWsChar c = true
      · rw [lexJson_step_ws f1 c rest hc,
          lexJson_step_ws (rest.length + 1) c rest hc]
        exact ih f1 (by omega) rest (by omega)
      · rw [Bool.not_eq_true] at hc
        cases htk : lexTok (c :: rest) with
        | none =>
          rw [lexJson_step_tokfail f1 c rest hc htk,
            lexJson_step_tokfail (rest.length + 1) c rest hc htk]
        | some p =>
          obtain ⟨tk, rest2⟩ := p
          have hsh := lexTok_shrink (c :: rest) tk rest2 htk
          rw [List.length_cons] at hsh
          have heq : lexJson f1 rest2 = lexJson (rest.length + 1) rest2 :=
            (ih f1 (by omega) rest2 (by omega)).trans
              (ih (rest.length + 1) (by omega) rest2 (by omega)).symm
          cases hrec : lexJson f1 rest2 with
          | none =>
            rw [lexJson_step_tok_none f1 c rest hc tk rest2 htk hrec,
              lexJson_step_tok_none (rest.length + 1) c rest hc tk rest2 htk
                (by rw [← heq]; exact hrec)]
          | some ts =>
            rw [lexJson_step_tok f1 c rest hc tk rest2 htk ts hrec,
              lexJson_step_tok (rest.length + 1) c rest hc tk rest2 htk ts
                (by rw [← heq]; exact hrec)]

/-- A successful tokenization also succeeds at the canonical fuel. -/
theorem lexJson_norm (f : Nat) (s : Str) (toks : List JTok)
    (h : lexJson f s = some toks) : lexJson (s.length + 1) s = some toks := by
  by_cases hf : s.length < f
  · rw [← lexJson_fuel f s hf]; exact h
  · exact lexJson_mono f s toks h (s.length + 1) (by omega)

/-- Tokenization is invariant under stripping leading Python whitespace. -/
theorem lexJson_dropWhile : ∀ f s toks, lexJson f s = some toks →
    ∃ g, lexJson g (s.dropWhile pyWsChar) = some toks := by
  intro f
  induction f with
  | zero => intro s toks h; exact Option.noConfusion h
  | succ f ih =>
    intro s toks h
    cases s with
    | nil => exact ⟨1, h⟩
    | cons c rest =>
      by_cases hc : jsonWsChar c = true
      · have hcp : pyWsChar c = true := jsonWs_pyWs c hc
        rw [show List.dropWhile pyWsChar (c :: rest) =
          List.dropWhile pyWsChar rest from by
            rw [List.dropWhile_cons]; simp [hcp]]
        simp only [lexJson, if_pos hc] at h
        exact ih rest toks h
      · rw [Bool.not_eq_true] at hc
        have h0 := h
        simp only [lexJson, hc, Bool.false_eq_true, if_false] at h
        cases htk : lexTok (c :: rest) with
        | none => simp only [htk] at h; exact Option.noConfusion h
        | some p =>
          have hcp : pyWsChar c = false := (lexTok_head_props c rest p htk).1
          rw [show List.dropWhile pyWsChar (c :: rest) = c :: rest from by
            rw [List.dropWhile_cons]; simp [hcp]]
          exact ⟨f + 1, h0⟩

/-- Tokenization is invariant under stripping trailing whitespace: an
all-whitespace input strips to nothing, and otherwise the stripped input
lexes to the same tokens. -/
theorem lexJson_stripRight : ∀ f s toks, lexJson f s = some toks →
    (toks = [] → stripRight s = []) ∧
    (toks ≠ [] → ∃ g, lexJson g (stripRight s) = some toks) := by
  intro f
  induction f with
  | zero => intro s toks h; exact Option.noConfusion h
  | succ f ih =>
    intro s toks h
    cases s with
    | nil =>
      have htoks : toks = [] := by
        have h2 : some ([] : List JTok) = some toks := h
        exact (Option.some.inj h2).symm
      subst htoks
      exact ⟨fun _ => rfl, fun hne => absurd rfl hne⟩
    | cons c rest =>
      by_cases hc : jsonWsChar c = true
      · simp only [lexJson, if_pos hc] at h
        obtain ⟨ihe, ihne⟩ := ih rest toks h
        constructor
        · intro ht
          have hre := ihe ht
          simp [stripRight, hre, jsonWs_pyWs c hc]
        · intro htne
          obtain ⟨g, hg⟩ := ihne htne
          have hrne : stripRight rest ≠ [] := by
            intro hnil
            rw [hnil] at hg
            cases g with
            | zero => exact Option.noConfusion hg
            | succ g1 =>
              have h2 : some ([] : List JTok) = some toks := hg
              exact htne (Option.some.inj h2).symm
          refine ⟨g + 1, ?_⟩
          have hsr : stripRight (c :: rest) = c :: stripRight rest := by
            cases hx : stripRight rest with
            | nil => exact absurd hx hrne
            | cons a t => simp [stripRight, hx]
          rw [hsr]
          simp only [lexJson, if_pos hc]
          exact hg
      · rw [Bool.not_eq_true] at hc
        simp only [lexJson, hc, Bool.false_eq_true, if_false] at h
        cases htk : lexTok (c :: rest) with
        | none => simp only [htk] at h; exact Option.noConfusion h
        | some p =>
          obtain ⟨tk, rest2⟩ := p
          simp only [htk] at h
          cases hrec : lexJson f rest2 with
          | none => simp only [hrec] at h; exact Option.noConfusion h
          | some ts =>
            simp only [hrec] at h
            have htoks : toks = tk :: ts := (Option.some.inj h).symm
            subst htoks
            refine ⟨fun hx => List.noConfusion hx, fun _ => ?_⟩
            obtain ⟨v, hv1, hv2, hv3, ⟨v0, cv, hv0, hcv⟩, hvstab⟩ :=
              lexTok_dec (c :: rest) tk rest2 htk
            obtain ⟨ihe, ihne⟩ := ih rest2 ts hrec
            obtain ⟨v2, hv2eq⟩ : ∃ v2, v = c :: v2 := by
              cases v with
              | nil => exact absurd rfl hv2
              | cons a t =>
                rw [List.cons_append] at hv1
                injection hv1 with ha _
                exact ⟨t, by rw [← ha]⟩
            by_cases hts : ts = []
            · subst hts
              have hre := ihe rfl
              have hv : stripRight (c :: rest) = v := by
                rw [hv1, stripRight_append, if_pos hre, hv0]
                exact stripRight_append_last v0 cv hcv
              refine ⟨v2.length + 2, ?_⟩
              have hstab := hvstab [] (Or.inl rfl)
              rw [List.append_nil] at hstab
              rw [hv, hv2eq]
              simp only [lexJson, hc, Bool.false_eq_true, if_false]
              rw [hv2eq] at hstab
              simp only [hstab]
            · obtain ⟨g, hg⟩ := ihne hts
              have hrne : stripRight rest2 ≠ [] := by
                intro hnil
                rw [hnil] at hg
                cases g with
                | zero => exact Option.noConfusion hg
                | succ g1 =>
                  have h2 : some ([] : List JTok) = some ts := hg
                  exact hts (Option.some.inj h2).symm
              have hv : stripRight (c :: rest) = v ++ stripRight rest2 := by
                rw [hv1, stripRight_append, if_neg hrne]
              obtain ⟨c2, t, t2, hre1, hre2⟩ := stripRight_head rest2 hrne
              have hstab := hvstab (stripRight rest2)
                (Or.inr ⟨c2, t, t2, hre1, hre2⟩)
              refine ⟨g + 1, ?_⟩
              rw [hv, hv2eq, List.cons_append]
              rw [hv2eq, List.cons_append] at hstab
              simp only [lexJson, hc, Bool.false_eq_true, if_false, hstab, hg]

/-- `json.loads` is invariant under Python outer-whitespace stripping. -/
theorem jsonLoads_pyStrip (j : Str) (v : JVal) (h : jsonLoads j = some v) :
    jsonLoads (pyStrip j) = some v := by
  simp only [jsonLoads] at h ⊢
  cases hlex : lexJson (j.length + 1) j with
  | none => simp only [hlex] at h; exact Option.noConfusion h
  | some toks =>
    simp only [hlex] at h
    obtain ⟨g1, hg1⟩ := lexJson_dropWhile (j.length + 1) j toks hlex
    obtain ⟨hemp, hne⟩ :=
      lexJson_stripRight g1 (List.dropWhile pyWsChar j) toks hg1
    by_cases hts : toks = []
    · subst hts
      rw [show parseVal (List.length ([] : List JTok) + 1) [] = none
        from rfl] at h
      exact Option.noConfusion h
    · obtain ⟨g2, hg2⟩ := hne hts
      have hfin : lexJson ((pyStrip j).length + 1) (pyStrip j) = some toks :=
        lexJson_norm g2 (pyStrip j) toks hg2
      simp only [hfin]
      exact h

/-- Splitting on newlines after prepending newline-free text extends the
first line and keeps the others. -/
theorem splitOnNl_append_noNl (v : Str) (hv : ∀ c ∈ v, c ≠ '\n') :
    ∀ w, ∃ l ls, splitOnNl w = l :: ls ∧
      splitOnNl (v ++ w) = (v ++ l) :: ls := by
  induction v with
  | nil =>
    intro w
    cases hx : splitOnNl w with
    | nil => exact absurd hx (splitOnNl_ne_nil w)
    | cons l ls => exact ⟨l, ls, rfl, by simpa using hx⟩
  | cons c v ih =>
    intro w
    have hc : c ≠ '\n' := hv c (by simp)
    obtain ⟨l, ls, h1, h2⟩ := ih (fun x hx => hv x (by simp [hx])) w
    refine ⟨l, ls, h1, ?_⟩
    simp only [List.cons_append, splitOnNl, if_neg hc, List.append_eq, h2]

/-- `startswith "```"` fails on an empty line and on a line not opening with
a backtick. -/
theorem startsW_fence_false (l : Str)
    (h : l = [] ∨ ∃ c t, l = c :: t ∧ c ≠ '`') :
    startsW (strL "```") l = false := by
  rcases h with rfl | ⟨c, t, rfl, hc⟩
  · rfl
  · simp only [show strL "```" = '`' :: strL "``" from rfl, startsW,
      beq_eq_false_iff_ne.mpr (Ne.symm hc), Bool.false_and]

/-- No line of a tokenizable text starts with a code fence: newlines occur
only between tokens, and no token starts with a backtick. -/
theorem lexJson_noFence : ∀ f s toks, lexJson f s = some toks →
    ∀ l ∈ splitOnNl s, startsW (strL "```") l = false := by
  intro f
  induction f with
  | zero => intro s toks h; exact Option.noConfusion h
  | succ f ih =>
    intro s toks h
    cases s with
    | nil =>
      intro l hl
      rw [show splitOnNl [] = [[]] from rfl] at hl
      rcases List.mem_singleton.mp hl with rfl
      rfl
    | cons c rest =>
      by_cases hc : jsonWsChar c = true
      · rw [lexJson_step_ws f c rest hc] at h
        have hrest := ih rest toks h
        by_cases hnl : c = '\n'
        · subst hnl
          intro l hl
          rw [show splitOnNl ('\n' :: rest) = [] :: splitOnNl rest from by
            simp [splitOnNl]] at hl
          rcases List.mem_cons.mp hl with rfl | hl
          · rfl
          · exact hrest l hl
        · intro l hl
          cases hx : splitOnNl rest with
          | nil => exact absurd hx (splitOnNl_ne_nil rest)
          | cons l0 ls0 =>
            rw [show splitOnNl (c :: rest) = (c :: l0) :: ls0 from by
              simp [splitOnNl, if_neg hnl, hx]] at hl
            rcases List.mem_cons.mp hl with rfl | hl
            · apply startsW_fence_false
              refine Or.inr ⟨c, l0, rfl, ?_⟩
              intro he
              rw [he] at hc
              exact absurd hc (by decide)
            · exact hrest l (by rw [hx]; exact List.mem_cons_of_mem l0 hl)
      · rw [Bool.not_eq_true] at hc
        cases htk : lexTok (c :: rest) with
        | none =>
          rw [lexJson_step_tokfail f c rest hc htk] at h
          exact Option.noConfusion h
        | some p =>
          obtain ⟨tk, rest2⟩ := p
          cases hrec : lexJson f rest2 with
          | none =>
            rw [lexJson_step_tok_none f c rest hc tk rest2 htk hrec] at h
            exact Option.noConfusion h
          | some ts =>
            obtain ⟨v, hv1, hv2, hv3, _, _⟩ :=
              lexTok_dec (c :: rest) tk rest2 htk
            have hrest2 := ih rest2 ts hrec
            obtain ⟨l0, ls0, hsp1, hsp2⟩ := splitOnNl_append_noNl v hv3 rest2
            intro l hl
            rw [hv1, hsp2] at hl
            rcases List.mem_cons.mp hl with rfl | hl
            · apply startsW_fence_false
              obtain ⟨v2, hv2eq⟩ : ∃ v2, v = c :: v2 := by
                cases v with
                | nil => exact absurd rfl hv2
                | cons a t =>
                  rw [List.cons_append] at hv1
                  injection hv1 with ha _
                  exact ⟨t, by rw [← ha]⟩
              refine Or.inr ⟨c, v2 ++ l0, by rw [hv2eq, List.cons_append], ?_⟩
              exact (lexTok_head_props c rest (tk, rest2) htk).2
            · exact hrest2 l (by rw [hsp1]; exact List.mem_cons_of_mem l0 hl)

/-- A decodable JSON text has no line starting with a code fence. -/
theorem jsonLoads_noFence (j : Str) (v : JVal) (h : jsonLoads j = some v) :
    ∀ l ∈ splitOnNl j, startsW (strL "```") l = false := by
  simp only [jsonLoads] at h
  cases hlex : lexJson (j.length + 1) j with
  | none => simp only [hlex] at h; exact Option.noConfusion h
  | some toks => exact lexJson_noFence (j.length + 1) j toks hlex

/-- C8: fence-stripping is idempotent with respect to normalization.  For
every text `j` that the JSON decoder accepts, normalizing `j` wrapped in a
code-fence block yields the same result as normalizing the unfenced `j`: the
fence lines are stripped and the enclosed text decodes identically. -/
theorem c8_fence_idempotent (st st2 : BrainState) (j : Str) (parsed : JVal)
    (h1 : jsonLoads j = some parsed) :
    (parse_response st (fenceWrap j)).1 = (parse_response st2 j).1 := by
  have h2 : jsonLoads (pyStrip j) = some parsed := jsonLoads_pyStrip j parsed h1
  have h3 : ∀ l ∈ splitOnNl j, startsW (strL "```") l = false :=
    jsonLoads_noFence j parsed h1
  have hj_ne : j ≠ [] := by
    intro h
    rw [h, show jsonLoads ([] : Str) = none from rfl] at h1
    exact Option.noConfusion h1
  have hf_ne : fenceWrap j ≠ [] := by
    rw [show fenceWrap j =
      '`' :: (strL "``json" ++ '\n' :: (j ++ '\n' :: strL "```")) from rfl]
    exact List.cons_ne_nil _ _
  have hns : startsW (strL "```") (pyStrip j) = false := by
    by_contra hb
    rw [Bool.not_eq_false] at hb
    obtain ⟨z, hz⟩ := startsW_fence3 _ hb
    rw [hz, jsonLoads_backtick] at h2
    exact Option.noConfusion h2
  have hsplit : splitOnNl (fenceWrap j) =
      strL "```json" :: (splitOnNl j ++ [strL "```"]) := by
    show splitOnNl (strL "```json" ++ '\n' :: (j ++ '\n' :: strL "```")) = _
    rw [splitOnNl_append, splitOnNl_append,
      show splitOnNl (strL "```json") = [strL "```json"] from rfl,
      show splitOnNl (strL "```") = [strL "```"] from rfl]
    rfl
  have hec_f : extractContent (fenceWrap j) = j := by
    simp only [extractContent]
    rw [pyStrip_fenceWrap,
      if_pos (show startsW (strL "```") (fenceWrap j) = true from rfl), hsplit]
    have hfl : stripFenceLines false
        (strL "```json" :: (splitOnNl j ++ [strL "```"])) = splitOnNl j := by
      simp only [stripFenceLines,
        show startsW (strL "```") (strL "```json") = true from rfl, if_true]
      exact stripFenceLines_wrap (splitOnNl j) h3
    rw [hfl, joinNl_splitOnNl]
  have hec_u : extractContent j = pyStrip j := by
    simp only [extractContent]
    rw [hns]
    simp
  cases hc : requiredFieldCheck parsed with
  | error e =>
    rw [parse_response_some_err st (fenceWrap j) parsed e hf_ne
        (by rw [hec_f]; exact h1) hc,
      parse_response_some_err st2 j parsed e hj_ne
        (by rw [hec_u]; exact h2) hc]
  | ok u =>
    cases u
    rw [parse_response_some_ok st (fenceWrap j) parsed hf_ne
        (by rw [hec_f]; exact h1) hc,
      parse_response_some_ok st2 j parsed hj_ne
        (by rw [hec_u]; exact h2) hc]

/-- Witness for C8 on a concrete JSON text with a leading blank. -/
theorem c8_fence_idempotent_witness :
    (parse_response BrainState.init (fenceWrap reqJsonRaw)).1 =
      (parse_response BrainState.init reqJsonRaw).1 :=
  c8_fence_idempotent BrainState.init BrainState.init reqJsonRaw reqJsonVal rfl
